import Mathlib

/-!
# deepin-ai-daemon: the vector-index ingest and query core

A shallow embedding of `src/index/vectorindex/embedding.cpp` (class `Embedding`):
the chunker (`textsSpliter`, `textsSplitSize`), the embedding client
(`embeddingTexts`), the ingest pipeline (`embeddingDocument`,
`embeddingDocumentSaveAs`), the cache maintenance (`deleteCacheIndex`,
`doIndexDump`, `embeddingClear`) and the query merge (`loadTextsFromSearch`), and of
`src/index/vectorindex/vectorindex.cpp` (class `VectorIndex`): `createIndex`,
`updateIndex`, `deleteIndex`, `saveIndexToFile`, `loadIndexFromFile`, `vectorSearch`.

Conventions of the embedding:

* `QString` is the list of its UTF-16 code units, the unit that `length()` and `mid()`
  count in; `+` is list concatenation.
* `QMap<K, T>` is an association list kept in ascending key order, one entry per key.
* Values of C type `int` are integers kept in `-2147483648 .. 2147483647` by `toInt32`
  where the source computes ids; `faiss::idx_t` keys are integers.
* A column of a database row reaches the code as a `QVariant`; the database layer hands
  every column over as a valid variant, a NULL one as the null variant.
* `kMinChunksSize`, `kMaxChunksSize` and `kSystemAssistantKey` are declared in
  `global_define.h`, which is not among the sources: they are parameters.
* Loops whose termination is not evident from the source carry a fuel argument and
  return `none` when it runs out.
* `float` values are only stored, copied and compared by this code: vectors are of an
  arbitrary type `V`, distances of an arbitrary linearly ordered type `D`.
-/

namespace DeepinAI

/-! ## Strings -/

/-- A `QChar`: one UTF-16 code unit, a number below 65536. -/
abbrev QChar := Nat

/-- A `QString`: the sequence of its UTF-16 code units. `length()` and `mid()` count code
units: a character outside the Basic Multilingual Plane takes two places, a high surrogate
(`0xD800..0xDBFF`) followed by a low one (`0xDC00..0xDFFF`). -/
abbrev QString := List QChar

/-- The UTF-16 code units of a character: the character itself below U+10000, else its
surrogate pair. -/
def utf16 (c : Char) : List QChar :=
  if c.toNat < 0x10000 then [c.toNat]
  else [0xD800 + (c.toNat - 0x10000) / 0x400, 0xDC00 + (c.toNat - 0x10000) % 0x400]

/-- Literal helper: the `QString` of a string literal. -/
def qs (s : String) : QString := (s.toList.map utf16).flatten

/-- The number of code points of a well-formed `QString`: every code unit but the low
surrogates, each of which closes a pair. -/
def codePoints (s : QString) : Nat :=
  (s.filter fun c => !(decide (0xDC00 ≤ c) && decide (c ≤ 0xDFFF))).length

/-- The class `[\s\u200B]` of `regexInvalidChar`: the six ASCII white-space characters
that `\s` matches (HT, LF, VT, FF, CR, space) and the zero-width space U+200B. All of
them are single code units, and no half of a surrogate pair is one of them: on the
well-formed text that `QString::fromUtf8` delivers, the match per code unit is the match
per character. -/
def isInvalidChar (c : QChar) : Bool :=
  c = 9 || c = 10 || c = 11 || c = 12 || c = 13 || c = 32 || c = 0x200B

/-- The class `[\n，；。,.]` of `regexSplit`, each member a single code unit. -/
def isSplitChar (c : QChar) : Bool :=
  c = 10 || c = Char.toNat '，' || c = Char.toNat '；' || c = Char.toNat '。'
    || c = Char.toNat ',' || c = Char.toNat '.'

/-- Worker of `texts.replace(regexInvalidChar, " ")`: `inRun` tells that the previous
character belonged to the run being replaced. -/
def replaceInvalidAux : Bool → QString → QString
  | _, [] => []
  | inRun, c :: cs =>
    if isInvalidChar c then
      if inRun then replaceInvalidAux true cs else Char.toNat ' ' :: replaceInvalidAux true cs
    else c :: replaceInvalidAux false cs

/-- The call `texts.replace(regexInvalidChar, " ")`: every maximal run of invalid
characters becomes one space. -/
def replaceInvalid (texts : QString) : QString := replaceInvalidAux false texts

/-- The call `texts.replace("'", "\"")`: the apostrophe (39) becomes the double quote (34). -/
def replaceQuote (texts : QString) : QString :=
  texts.map fun c => if c = 39 then 34 else c

/-- The text after the two `replace` calls at the head of `textsSpliter`. -/
def normalizeText (texts : QString) : QString := replaceQuote (replaceInvalid texts)

/-- Worker of `split`: `cur` is the fragment being read. -/
def splitAux : QString → QString → List QString
  | cur, [] => if cur.isEmpty then [] else [cur]
  | cur, c :: cs =>
    if isSplitChar c then
      if cur.isEmpty then splitAux [] cs else cur :: splitAux [] cs
    else splitAux (cur ++ [c]) cs

/-- The call `texts.split(regexSplit, SkipEmptyParts)`. -/
def splitSkipEmpty (texts : QString) : List QString := splitAux [] texts

/-- The call `text.mid(pos, n)` for `0 ≤ pos`, `0 ≤ n`. -/
def mid (text : QString) (pos n : Nat) : QString := (text.drop pos).take n

/-! ## Chunker -/

/-- `Embedding::textsSplitSize(text, splits, over, pos)`; `splits` and `over` are the
in-out arguments, returned. One unit of fuel per call. -/
def textsSplitSize (kMaxChunksSize : Nat) :
    Nat → QString → List QString → QString → Nat → Option (List QString × QString)
  | 0, _, _, _, _ => none
  | fuel + 1, text, splits, over, pos =>
    if pos ≥ text.length then some (splits, over)
    else
      let part := mid text pos kMaxChunksSize
      if part.length < kMaxChunksSize then some (splits, over ++ part)
      else textsSplitSize kMaxChunksSize fuel text (splits ++ [part]) over (pos + kMaxChunksSize)

/-- The `for (auto text : splitTexts)` loop of `textsSpliter`, with its two loop
variables `chunks` and `over`. -/
def spliterLoop (kMinChunksSize kMaxChunksSize : Nat) :
    List QString → List QString → QString → Option (List QString × QString)
  | [], chunks, over => some (chunks, over)
  | t :: rest, chunks, over =>
    let text := over ++ t
    if text.length > kMaxChunksSize then
      match textsSplitSize kMaxChunksSize (text.length + 1) text chunks [] 0 with
      | none => none
      | some (chunks2, over2) => spliterLoop kMinChunksSize kMaxChunksSize rest chunks2 over2
    else if text.length > kMinChunksSize ∧ text.length < kMaxChunksSize then
      spliterLoop kMinChunksSize kMaxChunksSize rest (chunks ++ [text]) []
    else spliterLoop kMinChunksSize kMaxChunksSize rest chunks text

/-- The statement `chunks.last() += over` on a non-empty list (identity on the empty one). -/
def appendToLast : List QString → QString → List QString
  | [], _ => []
  | [c], over => [c ++ over]
  | c :: d :: cs, over => c :: appendToLast (d :: cs) over

/-- The tail of `textsSpliter`, after the loop. -/
def spliterFlush (kMinChunksSize : Nat) (chunks : List QString) (over : QString) :
    List QString :=
  if over.length > kMinChunksSize then chunks ++ [over]
  else if chunks.isEmpty then chunks ++ [over]
  else appendToLast chunks over

/-- `Embedding::textsSpliter(texts)`; `none` when a `textsSplitSize` call does not return. -/
def textsSpliter (kMinChunksSize kMaxChunksSize : Nat) (texts : QString) :
    Option (List QString) :=
  match spliterLoop kMinChunksSize kMaxChunksSize
      (splitSkipEmpty (normalizeText texts)) [] [] with
  | none => none
  | some (chunks, over) => some (spliterFlush kMinChunksSize chunks over)

/-! ## Containers -/

/-- A `QMap<faiss::idx_t, T>`: the entries in ascending key order, one per key. -/
abbrev QMap (T : Type) := List (Int × T)

/-- `QMap::insert(k, v)`: a new entry at its place in key order, or the value of the entry
with key `k` replaced. -/
def QMap.insert {T : Type} (k : Int) (v : T) : QMap T → QMap T
  | [] => [(k, v)]
  | (k2, v2) :: m =>
    if k < k2 then (k, v) :: (k2, v2) :: m
    else if k = k2 then (k, v) :: m
    else (k2, v2) :: QMap.insert k v m

/-- `QMap::remove(k)`. -/
def QMap.remove {T : Type} (k : Int) (m : QMap T) : QMap T :=
  m.filter fun en => decide (en.1 ≠ k)

/-- `QMap::contains(k)`. -/
def QMap.contains {T : Type} (m : QMap T) (k : Int) : Bool :=
  m.any fun en => decide (en.1 = k)

/-- `QMap::find(k)`: the value of the entry with key `k`, `none` for `end()`. -/
def QMap.find {T : Type} (m : QMap T) (k : Int) : Option T :=
  match m.find? fun en => decide (en.1 = k) with
  | some en => some en.2
  | none => none

/-- `QMap::value(k)`: the value stored under `k`, or the default-constructed `dflt`. -/
def QMap.value {T : Type} (m : QMap T) (k : Int) (dflt : T) : T :=
  match QMap.find m k with
  | some v => v
  | none => dflt

/-- `QMap::keys()`: ascending. -/
def QMap.keys {T : Type} (m : QMap T) : List Int := m.map Prod.fst

/-- `QMap::size()`. -/
def QMap.size {T : Type} (m : QMap T) : Int := (m.length : Int)

/-- `QMap::operator[](k)` on a non-const map: the value under `k`, a default-constructed
entry being inserted first when `k` is absent. Returns the value and the map. -/
def QMap.index {T : Type} (m : QMap T) (k : Int) (dflt : T) : T × QMap T :=
  if QMap.contains m k then (QMap.value m k dflt, m) else (dflt, QMap.insert k dflt m)

/-- `QStringList::mid(pos, n)`. -/
def midList (texts : List QString) (pos n : Nat) : List QString := (texts.drop pos).take n

/-! ## Database -/

/-- A row of table `metadata(id, source, content)`; a column holding NULL is `none`. -/
structure MetaRow where
  id : Int
  source : Option QString
  content : Option QString
deriving DecidableEq, Repr

/-- A `QVariant` read from a text column: `some s` is a valid variant whose `toString()`
is `s`; `none` is the invalid variant, for which `isValid()` is false. -/
abbrev QVariant := Option QString

/-- A row `res` of the answer to `SELECT * FROM metadata` (a `QVariantList`): the id
`res[0]` and the variants `res[1]` (source) and `res[2]` (content). -/
structure MetaResult where
  id : Int
  source : QVariant
  content : QVariant
deriving DecidableEq, Repr

/-- Modelled from the spec: the variant that the database layer hands over for a column of
a row it returns. It is valid in every case: a NULL column comes as the null variant of the
column type, for which `isValid()` is true and `toString()` is the empty string. -/
def columnVariant (column : Option QString) : QVariant := some (column.getD [])

/-- A row of table `segments(id, deleteBit, content)`. -/
structure SegRow where
  id : Int
  deleteBit : Int
  content : QString
deriving DecidableEq, Repr

/-- Modelled from the spec: the per-key database behind `EmbedDBVendorIns` and the
`dataBase` pointer (§4.C), whose code is not among the sources: the rows of its two
tables. -/
structure EmbedDB where
  metadata : List MetaRow
  segments : List SegRow
deriving DecidableEq, Repr

/-- Modelled from the spec: the answer of the database to
`SELECT id FROM segments ORDER BY id DESC LIMIT 1` (`max_id()`): no row for an empty
table, else the one row holding the largest id. -/
def selectLastSegmentId (db : EmbedDB) : List Int :=
  match db.segments.map (fun r => r.id) with
  | [] => []
  | x :: xs => [xs.foldl max x]

/-- Modelled from the spec: the answer of the database to
`SELECT CASE WHEN EXISTS (SELECT 1 FROM metadata WHERE source = path) THEN 1 ELSE 0 END`
(`is_duplicate(source)`). -/
def selectSourceExists (db : EmbedDB) (path : QString) : Bool :=
  db.metadata.any fun r => decide (r.source = some path)

/-- Modelled from the spec: the answer of the database to
`SELECT * FROM metadata WHERE id = n` (`fetch(id)`): the rows of that id, each column as
the variant the database layer hands over. -/
def selectMetaById (db : EmbedDB) (id : Int) : List MetaResult :=
  (db.metadata.filter fun r => decide (r.id = id)).map fun r =>
    { id := r.id, source := columnVariant r.source, content := columnVariant r.content }

/-- Modelled from the spec: `commitTransaction` of a batch of `INSERT INTO metadata` rows
(`insert_many`): all rows commit, or (`ok = false`) none. -/
def commitMetadata (ok : Bool) (db : EmbedDB) (rows : List MetaRow) : Bool × EmbedDB :=
  if ok then (true, { db with metadata := db.metadata ++ rows }) else (false, db)

/-! ## The `Embedding` object and its environment -/

/-- The members of class `Embedding` that the embedded functions read or write. -/
structure Embedding (V : Type) where
  appID : QString
  embedDataCache : QMap (QString × QString)
  embedVectorCache : QMap V
  dataBase : EmbedDB
deriving DecidableEq, Repr

/-- What the embedded functions take from outside `embedding.cpp`: the constants of
`global_define.h`, the file system, the document parser and the embedding endpoint. -/
structure Env (V : Type) where
  /-- Constant `kMinChunksSize`. -/
  kMinChunksSize : Nat
  /-- Constant `kMaxChunksSize`. -/
  kMaxChunksSize : Nat
  /-- Constant `kSystemAssistantKey`. -/
  kSystemAssistantKey : QString
  /-- `QFileInfo(path).exists()`. -/
  fileExists : QString → Bool
  /-- `Utils::textEncodingTransferUTF8(DocParser::convertFile(path))`. -/
  convertFile : QString → QString
  /-- `Utils::isValidContent` of what `DocParser::convertFile(path)` returned. -/
  isValidContent : QString → Bool
  /-- The vectors in the `data` array of the reply of `onHttpEmbedding` to a sub-batch. -/
  onHttpEmbedding : List QString → List V
  /-- The directory `workerDir()/appID/Docs` when it exists or `mkpath` creates it. -/
  docsDir : Option QString

/-- `QFileInfo::fileName()`: what follows the last `/`. -/
def fileName (path : QString) : QString :=
  (path.reverse.takeWhile fun c => decide (c ≠ Char.toNat '/')).reverse

/-- `QFileInfo::baseName()`: the file name up to its first `.`. -/
def baseName (path : QString) : QString :=
  (fileName path).takeWhile fun c => decide (c ≠ Char.toNat '.')

/-- `QString::toUtf8().size()`: one byte for a code unit below `0x80`, two below `0x800`,
three for the other units outside the surrogate range, four for a surrogate pair, and one
(the `?` that replaces it) for a surrogate without its partner. -/
def utf8Size : QString → Nat
  | [] => 0
  | c :: rest =>
    if c < 0x80 then 1 + utf8Size rest
    else if c < 0x800 then 2 + utf8Size rest
    else if 0xD800 ≤ c ∧ c ≤ 0xDBFF then
      match rest with
      | d :: rest2 =>
        if 0xDC00 ≤ d ∧ d ≤ 0xDFFF then 4 + utf8Size rest2 else 1 + utf8Size (d :: rest2)
      | [] => 1
    else if 0xDC00 ≤ c ∧ c ≤ 0xDFFF then 1 + utf8Size rest
    else 3 + utf8Size rest

/-! ## Embedding client -/

/-- The `while (currentIndex < splitProcessText.size())` loop of `embeddingTexts`, the
constant `inputBatch` being 15. One unit of fuel per iteration. -/
def embeddingTextsLoop {V : Type} (api : List QString → List V) :
    Nat → List QString → Nat → List V → Option (List V)
  | 0, _, _, _ => none
  | fuel + 1, texts, currentIndex, vectors =>
    if currentIndex < texts.length then
      let subList := midList texts currentIndex 15
      embeddingTextsLoop api fuel texts (currentIndex + 15) (vectors ++ api subList)
    else some vectors

/-- `Embedding::embeddingTexts(texts)`. -/
def embeddingTexts {V : Type} (api : List QString → List V) (texts : List QString) :
    Option (List V) :=
  if texts.isEmpty then some []
  else embeddingTextsLoop api (texts.length + 1) texts 0 []

/-- The sub-lists that `embeddingTexts` hands to `onHttpEmbedding`, in call order (the
values of `subList`). -/
def subLists : Nat → List QString → Nat → List (List QString)
  | 0, _, _ => []
  | fuel + 1, texts, currentIndex =>
    if currentIndex < texts.length then
      midList texts currentIndex 15 :: subLists fuel texts (currentIndex + 15)
    else []

/-- The sub-batches of one `embeddingTexts(texts)` call. -/
def sentBatches (texts : List QString) : List (List QString) :=
  subLists (texts.length + 1) texts 0

/-! ## Ingest -/

/-- The value that a C `int` takes for the mathematical value `x`: `x` itself inside
`-2147483648 .. 2147483647`, else `x` wrapped modulo `2^32` into that range (the narrowing
of a 64-bit value, and the result of an `int` addition that overflows, on the two's
complement machines the daemon runs on). -/
def toInt32 (x : Int) : Int := (x + 2147483648) % 4294967296 - 2147483648

/-- `Embedding::getDBLastID()`: an `int`. The id read from the database is narrowed by
`QVariant::toInt()` and 1 is added in `int`. -/
def getDBLastID (db : EmbedDB) : Int :=
  match selectLastSegmentId db with
  | [] => 0
  | id :: _ => toInt32 (toInt32 id + 1)

/-- `Embedding::isDupDocument(docFilePath)`. -/
def isDupDocument (db : EmbedDB) (docFilePath : QString) : Bool :=
  selectSourceExists db docFilePath

/-- The `for (auto id : embedDataCache.keys())` search for a cached source equal to
`docFilePath`. -/
def cacheHasSource {V : Type} (e : Embedding V) (docFilePath : QString) : Bool :=
  (QMap.keys e.embedDataCache).any fun id =>
    decide (docFilePath = (QMap.value e.embedDataCache id ([], [])).1)

/-- The `for (int i = 0; i < chunks.count(); i++)` loop that fills the two caches; it is
entered with `vectors.count() == chunks.count()`. The variable `continueID` is an `int`. -/
def insertLoop {V : Type} (docFilePath : QString) :
    List QString → List V → Int → Embedding V → Embedding V
  | c :: cs, v :: vs, continueID, e =>
    if c.isEmpty then insertLoop docFilePath cs vs continueID e
    else
      insertLoop docFilePath cs vs (toInt32 (continueID + 1))
        { e with
          embedDataCache := QMap.insert continueID (docFilePath, c) e.embedDataCache
          embedVectorCache := QMap.insert continueID v e.embedVectorCache }
  | _, _, _, e => e

/-- The (chunk, vector) pairs that the insert loop stores: those of a non-empty chunk. -/
def keptPairs {V : Type} (chunks : List QString) (vectors : List V) : List (QString × V) :=
  (chunks.zip vectors).filter fun p => !p.1.isEmpty

/-- The value `embedDataCache.size() + getDBLastID()` that the `int continueID` starts
from. -/
def firstContinueID {V : Type} (e : Embedding V) : Int :=
  toInt32 (QMap.size e.embedDataCache + getDBLastID e.dataBase)

/-- The common tail of the two ingest functions: embed the chunks, check the counts, fill
the caches. -/
def embedAndStore {V : Type} (env : Env V) (e : Embedding V) (docFilePath : QString)
    (chunks : List QString) : Option (Bool × Embedding V) :=
  match embeddingTexts env.onHttpEmbedding chunks with
  | none => none
  | some vectors =>
    if vectors.length ≠ chunks.length then some (false, e)
    else if vectors.isEmpty then some (false, e)
    else some (true, insertLoop docFilePath chunks vectors (firstContinueID e) e)

/-- The chunk list of `embeddingDocument` before the embedding call: the chunks of the
contents, the file name in front when the base name is longer than 14 bytes. -/
def documentChunks {V : Type} (env : Env V) (docFilePath : QString) :
    Option (List QString) :=
  let contents := env.convertFile docFilePath
  match (if contents.isEmpty then some []
         else textsSpliter env.kMinChunksSize env.kMaxChunksSize contents) with
  | none => none
  | some chunks =>
    if utf8Size (baseName docFilePath) > 14 then some (fileName docFilePath :: chunks)
    else some chunks

/-- The statement `if (chunks.size() > 100) chunks = chunks.mid(0, 100)`. -/
def capChunks (chunks : List QString) : List QString :=
  if chunks.length > 100 then midList chunks 0 100 else chunks

/-- `Embedding::embeddingDocument(docFilePath)`: the returned flag and the object after the
call; `none` when the call does not return. -/
def embeddingDocument {V : Type} (env : Env V) (e : Embedding V) (docFilePath : QString) :
    Option (Bool × Embedding V) :=
  if !env.fileExists docFilePath then some (false, e)
  else if isDupDocument e.dataBase docFilePath then some (false, e)
  else if cacheHasSource e docFilePath then some (false, e)
  else if !env.isValidContent docFilePath then some (false, e)
  else
    match documentChunks env docFilePath with
    | none => none
    | some chunks =>
      if chunks.isEmpty then some (false, e)
      else
        embedAndStore env e docFilePath (capChunks chunks)

/-- `Embedding::saveAsDocPath(doc)`: the empty string when the directory cannot be made. -/
def saveAsDocPath {V : Type} (env : Env V) (doc : QString) : QString :=
  match env.docsDir with
  | none => []
  | some docDirStr => docDirStr ++ qs "/" ++ fileName doc

/-- `Embedding::embeddingDocumentSaveAs(docFilePath)`. -/
def embeddingDocumentSaveAs {V : Type} (env : Env V) (e : Embedding V)
    (docFilePath : QString) : Option (Bool × Embedding V) :=
  if !env.fileExists docFilePath then some (false, e)
  else
    let newDocPath := saveAsDocPath env docFilePath
    if isDupDocument e.dataBase newDocPath then some (false, e)
    else if cacheHasSource e newDocPath then some (false, e)
    else if !env.isValidContent docFilePath then some (false, e)
    else if (env.convertFile docFilePath).isEmpty then some (false, e)
    else
      match textsSpliter env.kMinChunksSize env.kMaxChunksSize (env.convertFile docFilePath) with
      | none => none
      | some chunks => embedAndStore env e newDocPath chunks

/-! ## Cache maintenance -/

/-- `Embedding::embeddingClear()`. -/
def embeddingClear {V : Type} (e : Embedding V) : Embedding V :=
  { e with embedDataCache := [], embedVectorCache := [] }

/-- `Embedding::deleteCacheIndex(files)`. -/
def deleteCacheIndex {V : Type} (e : Embedding V) (files : List QString) : Embedding V :=
  if files.isEmpty then e
  else
    (QMap.keys e.embedDataCache).foldl
      (fun e2 id =>
        if !files.contains (QMap.value e2.embedDataCache id ([], [])).1 then e2
        else
          { e2 with
            embedDataCache := QMap.remove id e2.embedDataCache
            embedVectorCache := QMap.remove id e2.embedVectorCache })
      e

/-- The ids `startID, startID + 1, ..., endID` of the loop of `doIndexDump`. -/
def idRange (startID endID : Int) : List Int :=
  (List.range (endID + 1 - startID).toNat).map fun k => startID + (k : Int)

/-- The loop of `doIndexDump`: the object and the rows to insert (`insertSqlstrs`). -/
def dumpLoop {V : Type} : List Int → Embedding V → List MetaRow → Embedding V × List MetaRow
  | [], e, rows => (e, rows)
  | id :: ids, e, rows =>
    if !QMap.contains e.embedDataCache id then dumpLoop ids e rows
    else
      let en := QMap.value e.embedDataCache id ([], [])
      dumpLoop ids
        { e with
          embedDataCache := QMap.remove id e.embedDataCache
          embedVectorCache := QMap.remove id e.embedVectorCache }
        (rows ++ [{ id := id, source := some en.1, content := some en.2 }])

/-- `Embedding::doIndexDump(startID, endID)`; `commitOk` is the outcome of the database
transaction. -/
def doIndexDump {V : Type} (commitOk : Bool) (e : Embedding V) (startID endID : Int) :
    Bool × Embedding V :=
  let (e2, insertSqlstrs) := dumpLoop (idRange startID endID) e []
  if insertSqlstrs.isEmpty then (false, e2)
  else
    let (ok, db) := commitMetadata commitOk e2.dataBase insertSqlstrs
    if !ok then (false, { e2 with dataBase := db })
    else (true, { e2 with dataBase := db })

/-! ## Query merge -/

/-- `Embedding::getDataCacheFromID(id)`: it reads `embedDataCache[id]` through the
non-const `operator[]`. Returns the pair and the cache after the call. -/
def getDataCacheFromID (embedDataCache : QMap (QString × QString)) (id : Int) :
    (QString × QString) × QMap (QString × QString) :=
  QMap.index embedDataCache id ([], [])

/-- One object of the `result` array: source, content, distance. -/
structure SearchRecord (D : Type) where
  source : QString
  content : QString
  distance : D
deriving DecidableEq, Repr

/-- What `loadTextsFromSearch` returns: the null string (`return {}`) or the JSON document
with its `result` array (the `version` field is a constant). -/
inductive SearchOutput (D : Type) where
  | null : SearchOutput D
  | doc (result : List (SearchRecord D)) : SearchOutput D
deriving DecidableEq, Repr

/-- The local variables of the merge part of `loadTextsFromSearch`, and the data cache,
which `getDataCacheFromID` may write. -/
structure MergeState (D : Type) where
  i : Nat
  j : Nat
  sort : Int
  embedDataCache : QMap (QString × QString)
  resultArray : List (SearchRecord D)
deriving DecidableEq, Repr

/-- The statements that emit the cache hit `cacheIt` and advance `sort` and `i`. -/
def emitCache {D : Type} (st : MergeState D) (cacheIt : D × Int) : MergeState D :=
  let r := getDataCacheFromID st.embedDataCache cacheIt.2
  { st with
    i := st.i + 1
    sort := st.sort + 1
    embedDataCache := r.2
    resultArray := st.resultArray ++ [{ source := r.1.1, content := r.1.2, distance := cacheIt.1 }] }

/-- The statements that treat the disk hit `dumpIt`: no row, `j` advances; a row whose
source or content variant is invalid, `continue` with nothing advanced; else the record is
emitted and `sort` and `j` advance. -/
def emitDisk {D : Type} (db : EmbedDB) (st : MergeState D) (dumpIt : D × Int) : MergeState D :=
  match selectMetaById db dumpIt.2 with
  | [] => { st with j := st.j + 1 }
  | res :: _ =>
    match res.source, res.content with
    | some source, some content =>
      { st with
        j := st.j + 1
        sort := st.sort + 1
        resultArray := st.resultArray ++ [{ source := source, content := content, distance := dumpIt.1 }] }
    | _, _ => st

/-- The first loop, `while (i < cacheSearchRes.size() && j < dumpSearchRes.size())`. -/
def mergeLoop {D : Type} [LinearOrder D] (db : EmbedDB) (topK : Int)
    (cacheSearchRes dumpSearchRes : List (D × Int)) : Nat → MergeState D → Option (MergeState D)
  | 0, _ => none
  | fuel + 1, st =>
    match cacheSearchRes[st.i]?, dumpSearchRes[st.j]? with
    | some cacheIt, some dumpIt =>
      if st.sort > topK then some st
      else if cacheIt.1 < dumpIt.1 then
        mergeLoop db topK cacheSearchRes dumpSearchRes fuel (emitCache st cacheIt)
      else mergeLoop db topK cacheSearchRes dumpSearchRes fuel (emitDisk db st dumpIt)
    | _, _ => some st

/-- The second loop, `while (i < cacheSearchRes.size())`. -/
def cacheLoop {D : Type} (topK : Int) (cacheSearchRes : List (D × Int)) :
    Nat → MergeState D → Option (MergeState D)
  | 0, _ => none
  | fuel + 1, st =>
    match cacheSearchRes[st.i]? with
    | some cacheIt =>
      if st.sort > topK then some st
      else cacheLoop topK cacheSearchRes fuel (emitCache st cacheIt)
    | none => some st

/-- The third loop, `while (j < dumpSearchRes.size())`. -/
def diskLoop {D : Type} (db : EmbedDB) (topK : Int) (dumpSearchRes : List (D × Int)) :
    Nat → MergeState D → Option (MergeState D)
  | 0, _ => none
  | fuel + 1, st =>
    match dumpSearchRes[st.j]? with
    | some dumpIt =>
      if st.sort > topK then some st
      else diskLoop db topK dumpSearchRes fuel (emitDisk db st dumpIt)
    | none => some st

/-- The branch `appID == kSystemAssistantKey`: the loop over the disk hits; `none` is the
early `return {}`. -/
def systemLoop {D : Type} (db : EmbedDB) :
    List (D × Int) → List (SearchRecord D) → Option (List (SearchRecord D))
  | [], resultArray => some resultArray
  | dumpIt :: rest, resultArray =>
    match selectMetaById db dumpIt.2 with
    | [] => none
    | res :: _ =>
      match res.source, res.content with
      | some source, some content =>
        systemLoop db rest
          (resultArray ++ [{ source := source, content := content, distance := dumpIt.1 }])
      | _, _ => systemLoop db rest resultArray

/-- `Embedding::loadTextsFromSearch(topK, cacheSearchRes, dumpSearchRes)`; the two
`QMap<float, faiss::idx_t>` are lists of (distance, id) in ascending distance. Each loop
may use `fuel` iterations; the result is `none` when one of them uses more. -/
def loadTextsFromSearch {V D : Type} [LinearOrder D] (env : Env V) (fuel : Nat)
    (e : Embedding V) (topK : Int) (cacheSearchRes dumpSearchRes : List (D × Int)) :
    Option (SearchOutput D × Embedding V) :=
  if e.appID = env.kSystemAssistantKey then
    match systemLoop e.dataBase dumpSearchRes [] with
    | none => some (SearchOutput.null, e)
    | some resultArray => some (SearchOutput.doc resultArray, e)
  else
    let st0 : MergeState D :=
      { i := 0, j := 0, sort := 1, embedDataCache := e.embedDataCache, resultArray := [] }
    match mergeLoop e.dataBase topK cacheSearchRes dumpSearchRes fuel st0 with
    | none => none
    | some st1 =>
      match cacheLoop topK cacheSearchRes fuel st1 with
      | none => none
      | some st2 =>
        match diskLoop e.dataBase topK dumpSearchRes fuel st2 with
        | none => none
        | some st3 =>
          some (SearchOutput.doc st3.resultArray, { e with embedDataCache := st3.embedDataCache })

/-! ## Reference merge -/

/-- The two-way merge of two hit lists by ascending distance, each hit tagged with its
origin (`true`: cache, `false`: disk); on equal distances the disk hit goes first, as the
test `cacheIt.key() < dumpIt.key()` of the first loop decides. -/
def mergeHits {D : Type} [LinearOrder D] :
    List (D × Int) → List (D × Int) → List (Bool × (D × Int))
  | [], ds => ds.map fun d => (false, d)
  | c :: cs, [] => (c :: cs).map fun x => (true, x)
  | c :: cs, d :: ds =>
    if c.1 < d.1 then (true, c) :: mergeHits cs (d :: ds)
    else (false, d) :: mergeHits (c :: cs) ds
termination_by cs ds => cs.length + ds.length

/-- The record that `loadTextsFromSearch` emits for a tagged hit: for a cache hit the
entry of the data cache (the default pair when absent), for a disk hit the first row that
the database returns for the id. -/
def resolveHit {D : Type} (db : EmbedDB) (embedDataCache : QMap (QString × QString)) :
    Bool × (D × Int) → SearchRecord D
  | (true, hit) =>
    { source := (QMap.value embedDataCache hit.2 ([], [])).1
      content := (QMap.value embedDataCache hit.2 ([], [])).2
      distance := hit.1 }
  | (false, hit) =>
    match selectMetaById db hit.2 with
    | [] => { source := [], content := [], distance := hit.1 }
    | res :: _ =>
      { source := res.source.getD [], content := res.content.getD [], distance := hit.1 }

/-- The disk id resolves to a valid metadata row: the database returns a row for it, and
the source and the content variant of the first row returned are both valid. -/
def validRow (db : EmbedDB) (id : Int) : Bool :=
  match selectMetaById db id with
  | [] => false
  | res :: _ => res.source.isSome && res.content.isSome

/-! ## Sample data -/

/-- A sample endpoint: one vector per text, here the length of the text. -/
def sampleApi (texts : List QString) : List Nat := texts.map List.length

/-- A sample endpoint that answers a sub-batch of 15 texts with 14 vectors and any other
sub-batch with one vector too many. -/
def shiftingApi (texts : List QString) : List Nat :=
  if texts.length = 15 then List.replicate 14 0 else List.replicate (texts.length + 1) 0

/-- Sample documents: `/a` has two chunks, `/b` one, `/c` two, `/long` sixteen; any other
path holds a lone full stop. -/
def sampleContents (path : QString) : QString :=
  if path = qs "/a" then qs "aaa.bbb"
  else if path = qs "/b" then qs "ccc"
  else if path = qs "/c" then qs "ddd.eee"
  else if path = qs "/long" then (List.replicate 16 (qs "aaa.")).flatten
  else qs "."

/-- A sample environment with `kMinChunksSize = 2` and `kMaxChunksSize = 8`: every file
exists and parses to valid content. -/
def sampleEnv : Env Nat :=
  { kMinChunksSize := 2
    kMaxChunksSize := 8
    kSystemAssistantKey := qs "system"
    fileExists := fun _ => true
    convertFile := sampleContents
    isValidContent := fun _ => true
    onHttpEmbedding := sampleApi
    docsDir := some (qs "/docs") }

/-- The sample environment with the endpoint `shiftingApi`. -/
def shiftingEnv : Env Nat := { sampleEnv with onHttpEmbedding := shiftingApi }

/-- A fresh `Embedding` object of key `k1`: empty caches, empty database. -/
def emptyEmbedding : Embedding Nat :=
  { appID := qs "k1"
    embedDataCache := []
    embedVectorCache := []
    dataBase := { metadata := [], segments := [] } }

/-- Seventeen sample texts `x`, `xx`, ... -/
def sampleTexts : List QString := (List.range 17).map fun k => List.replicate (k + 1) (Char.toNat 'x')

/-- The sample environment with an endpoint that returns no vector at all. -/
def silentEnv : Env Nat := { sampleEnv with onHttpEmbedding := fun _ => [] }

/-- The sample environment in which the directory `Docs` cannot be made. -/
def noDocsDirEnv : Env Nat := { sampleEnv with docsDir := none }

/-- The object after `/b` was indexed through `embeddingDocumentSaveAs` while the directory
`Docs` could not be made: id 0 with an empty source. -/
def stateNoSource : Embedding Nat :=
  { emptyEmbedding with
    embedDataCache := [(0, ([], qs "ccc"))]
    embedVectorCache := [(0, 3)] }

/-- The object after `/a` was indexed into `emptyEmbedding`: ids 0 and 1. -/
def stateA : Embedding Nat :=
  { emptyEmbedding with
    embedDataCache := [(0, (qs "/a", qs "aaa")), (1, (qs "/a", qs "bbb"))]
    embedVectorCache := [(0, 3), (1, 3)] }

/-- The object after `/a` and then `/b` were indexed: ids 0, 1 and 2. -/
def stateAB : Embedding Nat :=
  { emptyEmbedding with
    embedDataCache := [(0, (qs "/a", qs "aaa")), (1, (qs "/a", qs "bbb")), (2, (qs "/b", qs "ccc"))]
    embedVectorCache := [(0, 3), (1, 3), (2, 3)] }

/-- The object after `/a` was then deleted: id 2 alone. -/
def stateB : Embedding Nat :=
  { emptyEmbedding with
    embedDataCache := [(2, (qs "/b", qs "ccc"))]
    embedVectorCache := [(2, 3)] }

/-- The object after `/c` was then indexed: ids 1 and 2, both of `/c`. -/
def stateC : Embedding Nat :=
  { emptyEmbedding with
    embedDataCache := [(1, (qs "/c", qs "ddd")), (2, (qs "/c", qs "eee"))]
    embedVectorCache := [(1, 3), (2, 3)] }

/-- The object after `/b` alone was indexed into `emptyEmbedding`: id 0. -/
def stateOnlyB : Embedding Nat :=
  { emptyEmbedding with
    embedDataCache := [(0, (qs "/b", qs "ccc"))]
    embedVectorCache := [(0, 3)] }

/-- The object after a search that read the absent id 0 through `getDataCacheFromID`. -/
def stateStale : Embedding Nat :=
  { emptyEmbedding with embedDataCache := [(0, ([], []))] }

/-- A sample object for searches: ids 10 to 13 cached, ids 1 to 3 persisted. -/
def searchEmbedding : Embedding Nat :=
  { appID := qs "k1"
    embedDataCache :=
      [(10, (qs "/a", qs "aaa")), (11, (qs "/a", qs "bbb")), (12, (qs "/b", qs "ccc")),
        (13, (qs "/c", qs "ddd"))]
    embedVectorCache := [(10, 3), (11, 3), (12, 3), (13, 3)]
    dataBase :=
      { metadata :=
          [{ id := 1, source := some (qs "/x"), content := some (qs "xxx") },
            { id := 2, source := some (qs "/x"), content := some (qs "yyy") },
            { id := 3, source := some (qs "/y"), content := some (qs "zzz") }]
        segments :=
          [{ id := 1, deleteBit := 1, content := qs "flat_1.faiss" },
            { id := 2, deleteBit := 1, content := qs "flat_1.faiss" },
            { id := 3, deleteBit := 1, content := qs "flat_1.faiss" }] } }

/-- Four sample cache hits (distance, id). -/
def cacheHits : List (Nat × Int) := [(1, 10), (4, 11), (6, 12), (9, 13)]

/-- Three sample disk hits (distance, id); the second ties with the second cache hit. -/
def diskHits : List (Nat × Int) := [(2, 1), (4, 2), (7, 3)]

/-- A sample object of key `k1` after `/a` (ids 0 and 1) was indexed and dumped and `/b`
(id 2) was indexed: the rows of `/a` are in the database, the chunk of `/b` is cached. -/
def persistedAB : Embedding Nat :=
  { appID := qs "k1"
    embedDataCache := [(2, (qs "/b", qs "ccc"))]
    embedVectorCache := [(2, 3)]
    dataBase :=
      { metadata :=
          [{ id := 0, source := some (qs "/a"), content := some (qs "aaa") },
            { id := 1, source := some (qs "/a"), content := some (qs "bbb") }]
        segments :=
          [{ id := 0, deleteBit := 1, content := qs "Flat_1.faiss" },
            { id := 1, deleteBit := 1, content := qs "Flat_1.faiss" }] } }

/-- The object `persistedAB` after `/c` was indexed: ids 3 and 4 are cached as well. -/
def persistedABC : Embedding Nat :=
  { persistedAB with
    embedDataCache :=
      [(2, (qs "/b", qs "ccc")), (3, (qs "/c", qs "ddd")), (4, (qs "/c", qs "eee"))]
    embedVectorCache := [(2, 3), (3, 3), (4, 3)] }

/-- A sample object whose largest persisted id is 2147483647, the largest `int`. -/
def lastIdEmbedding : Embedding Nat :=
  { appID := qs "k1"
    embedDataCache := []
    embedVectorCache := []
    dataBase :=
      { metadata :=
          [{ id := 2147483647, source := some (qs "/x"), content := some (qs "xxx") }]
        segments := [{ id := 2147483647, deleteBit := 1, content := qs "Flat_1.faiss" }] } }

/-- The object `lastIdEmbedding` after `/b` was indexed: its chunk is under id
-2147483648. -/
def wrappedIdEmbedding : Embedding Nat :=
  { lastIdEmbedding with
    embedDataCache := [(-2147483648, (qs "/b", qs "ccc"))]
    embedVectorCache := [(-2147483648, 3)] }

/-- The sample search object under the system key. -/
def systemEmbedding : Embedding Nat := { searchEmbedding with appID := qs "system" }

/-- The sample environment in which every document has 101 chunks `aaa`. -/
def manyChunksEnv : Env Nat :=
  { sampleEnv with convertFile := fun _ => (List.replicate 101 (qs "aaa.")).flatten }

/-! ## Vector index (`vectorindex.cpp`) -/

/-- A `faiss::IndexIDMap` over a flat index of some dimension: the stored (id, vector)
pairs in insertion order, a vector being its scalars; `ntotal` is the length. -/
abbrev FaissIndex (F : Type) := List (Int × List F)

/-- The first `n` vectors of dimension `d` in the buffer `x`. -/
def vectorsOf {F : Type} (d : Nat) : Nat → List F → List (List F)
  | 0, _ => []
  | n + 1, x => x.take d :: vectorsOf d n (x.drop d)

/-- `IndexIDMap::add_with_ids(n, x, xids)` for buffers that hold `n` vectors and `n` ids:
the vectors are appended under their ids. -/
def addWithIds {F : Type} (d n : Nat) (x : List F) (xids : List Int) (index : FaissIndex F) :
    FaissIndex F :=
  index ++ (xids.take n).zip (vectorsOf d n x)

/-- `IndexIDMap::remove_ids` with an `IDSelectorArray` over `deleteID`. -/
def removeIds {F : Type} (deleteID : List Int) (index : FaissIndex F) : FaissIndex F :=
  index.filter fun en => !deleteID.contains en.1

/-- Lookup in a table keyed by strings (`QHash::value`, a directory or database by name). -/
def lookupName {α : Type} (name : QString) (table : List (QString × α)) : Option α :=
  match table.find? fun en => decide (en.1 = name) with
  | some en => some en.2
  | none => none

/-- The table with the entry of `name` set to `value` (`QHash::insert`, a file written). -/
def storeName {α : Type} (name : QString) (value : α) : List (QString × α) → List (QString × α)
  | [] => [(name, value)]
  | en :: table =>
    if en.1 = name then (name, value) :: table else en :: storeName name value table

/-- The table without the entry of `name` (`QHash::remove`). -/
def dropName {α : Type} (name : QString) (table : List (QString × α)) : List (QString × α) :=
  table.filter fun en => decide (en.1 ≠ name)

/-- `QString::contains(sub)`. -/
def containsStr : QString → QString → Bool
  | [], sub => sub.isEmpty
  | c :: cs, sub => sub.isPrefixOf (c :: cs) || containsStr cs sub

/-- `QString::number(n)` for `n ≥ 0`: the decimal digits. -/
def numberStr (n : Nat) : QString := qs (Nat.repr n)

/-- A directory `workerDir()/<key>`: its regular files by name, each an index file. -/
structure IndexDir (F : Type) where
  files : List (QString × FaissIndex F)
deriving DecidableEq, Repr

/-- The members of class `VectorIndex` and what its functions reach outside the object:
the directories `workerDir()/<key>` and the databases `<key>.db`. -/
structure VectorIndex (F : Type) where
  flatIndexHash : List (QString × FaissIndex F)
  segmentIds : List Int
  /-- The existing directories, by key. -/
  dirs : List (QString × IndexDir F)
  /-- The databases, by name. -/
  dbs : List (QString × EmbedDB)
deriving DecidableEq, Repr

/-- What `vectorindex.cpp` takes from outside: the constants of `global_define.h`, the
outcome of writing a file and of a transaction, and the search of the faiss library. -/
structure IndexEnv (F : Type) where
  /-- Constant `kFaissFlatIndex`. -/
  kFaissFlatIndex : QString
  /-- Constant `kFaissIvfFlatIndex`. -/
  kFaissIvfFlatIndex : QString
  /-- Constant `kFaissIvfPQIndex`. -/
  kFaissIvfPQIndex : QString
  /-- Whether `faiss::write_index` returns; it throws a `FaissException` otherwise. -/
  writeIndexOk : Bool
  /-- Whether the transaction of `commitTransaction` commits. -/
  commitOk : Bool
  /-- The labels that `index->search(1, queryVector, topK, ...)` writes to `I1`. -/
  faissSearch : FaissIndex F → List F → Int → List Int

/-- Modelled from the spec: `EmbedDBManagerIns->commitTransaction(name, rows)` for a batch
of `INSERT INTO segments` rows (`insert_many`, §4.C): all rows commit to the database of
that name, or (`ok = false`) none. -/
def commitSegments (ok : Bool) (dbs : List (QString × EmbedDB)) (name : QString)
    (rows : List SegRow) : List (QString × EmbedDB) :=
  if ok then
    match lookupName name dbs with
    | some db => storeName name { db with segments := db.segments ++ rows } dbs
    | none => storeName name { metadata := [], segments := rows } dbs
  else dbs

/-- The value `getIndexFilesNum(indexKey).value(indexType)`: the number of files of the
directory whose name contains `indexType`, for the three known index types; 0 for an
unknown type, a missing directory or an empty one. -/
def indexFilesNum {F : Type} (env : IndexEnv F) (vi : VectorIndex F) (indexKey indexType : QString) :
    Nat :=
  match lookupName indexKey vi.dirs with
  | none => 0
  | some indexDir =>
    if indexType = env.kFaissFlatIndex ∨ indexType = env.kFaissIvfFlatIndex
        ∨ indexType = env.kFaissIvfPQIndex then
      (indexDir.files.filter fun f => containsStr f.1 indexType).length
    else 0

/-- `VectorIndex::saveIndexToFile(index, indexKey, indexType)`: the returned flag and the
object after the call. -/
def saveIndexToFile {F : Type} (env : IndexEnv F) (vi : VectorIndex F) (index : FaissIndex F)
    (indexKey indexType : QString) : Bool × VectorIndex F :=
  match lookupName indexKey vi.dirs with
  | none => (false, vi)
  | some indexDir =>
    let indexName :=
      indexType ++ qs "_" ++ numberStr (indexFilesNum env vi indexKey indexType + 1) ++ qs ".faiss"
    let insertStrs : List SegRow :=
      vi.segmentIds.map fun id => { id := id, deleteBit := 1, content := indexName }
    let vi1 : VectorIndex F :=
      { vi with
        dbs := commitSegments env.commitOk vi.dbs (indexKey ++ qs ".db") insertStrs
        segmentIds := [] }
    if env.writeIndexOk then
      (true,
        { vi1 with
          dirs := storeName indexKey { files := storeName indexName index indexDir.files } vi1.dirs })
    else (true, vi1)

/-- `VectorIndex::loadIndexFromFile(indexKey, indexType)`: `none` is the null pointer. -/
def loadIndexFromFile {F : Type} (vi : VectorIndex F) (indexKey indexType : QString) :
    Option (FaissIndex F) :=
  match lookupName indexKey vi.dirs with
  | none => none
  | some indexDir => lookupName (indexType ++ qs ".faiss") indexDir.files

/-- `VectorIndex::vectorSearch(topK, queryVector, indexKey)`. -/
def vectorSearch {F : Type} (env : IndexEnv F) (vi : VectorIndex F) (topK : Int)
    (queryVector : List F) (indexKey : QString) : List Int :=
  match loadIndexFromFile vi indexKey env.kFaissFlatIndex with
  | none => []
  | some index => env.faissSearch index queryVector topK

/-- `VectorIndex::onIndexDump(indexKey)`, the slot of signal `indexDump`; it is called with
the key present in `flatIndexHash`. -/
def onIndexDump {F : Type} (env : IndexEnv F) (vi : VectorIndex F) (indexKey : QString) :
    VectorIndex F :=
  let r := saveIndexToFile env vi ((lookupName indexKey vi.flatIndexHash).getD []) indexKey
    env.kFaissFlatIndex
  { r.2 with flatIndexHash := dropName indexKey r.2.flatIndexHash }

/-- `VectorIndex::updateIndex(d, embeddings, ids, indexKey)`; the signal `indexDump` is
delivered at once, as a call of its slot. `none` where the source divides by `d = 0` or
hands the library a negative count (`ntotal` above the count). -/
def updateIndex {F : Type} (env : IndexEnv F) (vi : VectorIndex F) (d : Nat)
    (embeddings : List F) (ids : List Int) (indexKey : QString) :
    Option (Bool × VectorIndex F) :=
  if embeddings.isEmpty then some (false, vi)
  else if d = 0 then none
  else if embeddings.length / d ≠ ids.length then some (false, vi)
  else
    let flatIndexIDMapTmp := (lookupName indexKey vi.flatIndexHash).getD []
    let oldIndexTotal := flatIndexIDMapTmp.length
    if embeddings.length / d < oldIndexTotal then none
    else
      let n := embeddings.length / d - oldIndexTotal
      let embeddingsTmp := embeddings.drop (oldIndexTotal * d)
      let idsTmp := ids.drop oldIndexTotal
      let index := addWithIds d n embeddingsTmp idsTmp flatIndexIDMapTmp
      let vi1 : VectorIndex F :=
        { vi with
          flatIndexHash := storeName indexKey index vi.flatIndexHash
          segmentIds := vi.segmentIds ++ idsTmp }
      if index.length ≥ 2 then some (true, onIndexDump env vi1 indexKey) else some (true, vi1)

/-- `VectorIndex::createFlatIndex(d, embeddings, ids, indexKey)` for `d > 0`. -/
def createFlatIndex {F : Type} (env : IndexEnv F) (vi : VectorIndex F) (d : Nat)
    (embeddings : List F) (ids : List Int) (indexKey : QString) : Bool × VectorIndex F :=
  saveIndexToFile env vi (addWithIds d (embeddings.length / d) embeddings ids []) indexKey
    env.kFaissFlatIndex

/-- `VectorIndex::createIvfFlatIndex`: a stub. -/
def createIvfFlatIndex {F : Type} (vi : VectorIndex F) : Bool × VectorIndex F := (false, vi)

/-- `VectorIndex::createIndex(d, embeddings, ids, indexKey)`; `none` where the source
divides by `d = 0`. -/
def createIndex {F : Type} (env : IndexEnv F) (vi : VectorIndex F) (d : Nat)
    (embeddings : List F) (ids : List Int) (indexKey : QString) :
    Option (Bool × VectorIndex F) :=
  if d = 0 then none
  else if embeddings.length / d ≠ ids.length then some (false, vi)
  else if embeddings.length / d < 1000 then
    some (createFlatIndex env vi d embeddings ids indexKey)
  else if embeddings.length / d < 1000000 then some (createIvfFlatIndex vi)
  else some (false, vi)

/-- `VectorIndex::deleteFlatIndex(deleteID, indexKey)`. -/
def deleteFlatIndex {F : Type} (env : IndexEnv F) (vi : VectorIndex F) (deleteID : List Int)
    (indexKey : QString) : Bool × VectorIndex F :=
  match loadIndexFromFile vi indexKey env.kFaissFlatIndex with
  | none => (false, vi)
  | some index => saveIndexToFile env vi (removeIds deleteID index) indexKey env.kFaissFlatIndex

/-- `VectorIndex::deleteIndex(indexKey, deleteID)`. -/
def deleteIndex {F : Type} (env : IndexEnv F) (vi : VectorIndex F) (indexKey : QString)
    (deleteID : List Int) : Bool × VectorIndex F :=
  deleteFlatIndex env vi deleteID indexKey

/-- The number of rows of table `segments` with `deleteBit = 1` in the database `name`. -/
def liveSegmentRows {F : Type} (vi : VectorIndex F) (name : QString) : Nat :=
  match lookupName name vi.dbs with
  | none => 0
  | some db => (db.segments.filter fun r => decide (r.deleteBit = 1)).length

/-- A sample environment of the vector index: index type `Flat`, writes and transactions
succeed, the search returns the first `topK` ids of the index. -/
def sampleIndexEnv : IndexEnv Nat :=
  { kFaissFlatIndex := qs "Flat"
    kFaissIvfFlatIndex := qs "IVF256,Flat"
    kFaissIvfPQIndex := qs "IVF256,PQ8"
    writeIndexOk := true
    commitOk := true
    faissSearch := fun index _ topK => (index.map Prod.fst).take topK.toNat }

/-- The sample environment in which `faiss::write_index` throws. -/
def failingWriteEnv : IndexEnv Nat := { sampleIndexEnv with writeIndexOk := false }

/-- A fresh `VectorIndex` object with the empty directories and databases of keys `k1` and
`k2`. -/
def emptyVectorIndex : VectorIndex Nat :=
  { flatIndexHash := []
    segmentIds := []
    dirs := [(qs "k1", { files := [] }), (qs "k2", { files := [] })]
    dbs := [(qs "k1.db", { metadata := [], segments := [] }),
      (qs "k2.db", { metadata := [], segments := [] })] }

/-- The sample object after `updateIndex(1, [7], [5], "k2")`: one vector in the memory
shard of `k2`, its id pending in `segmentIds`. -/
def pendingOtherKey : VectorIndex Nat :=
  { emptyVectorIndex with
    flatIndexHash := [(qs "k2", [(5, [7])])]
    segmentIds := [5] }

/-- The object after `updateIndex(1, [8, 9], [0, 1], "k1")` then dumped `k1`: the file
`Flat_1.faiss` of `k1` holds ids 0 and 1, and `k1.db` holds three rows, of ids 5, 0, 1. -/
def dumpedWithOtherKey : VectorIndex Nat :=
  { flatIndexHash := [(qs "k2", [(5, [7])])]
    segmentIds := []
    dirs := [(qs "k1", { files := [(qs "Flat_1.faiss", [(0, [8]), (1, [9])])] }),
      (qs "k2", { files := [] })]
    dbs := [(qs "k1.db",
        { metadata := []
          segments :=
            [{ id := 5, deleteBit := 1, content := qs "Flat_1.faiss" },
              { id := 0, deleteBit := 1, content := qs "Flat_1.faiss" },
              { id := 1, deleteBit := 1, content := qs "Flat_1.faiss" }] }),
      (qs "k2.db", { metadata := [], segments := [] })] }

/-- The fresh object after `createIndex(4, [], [], "k1")`: the file `Flat_1.faiss` of `k1`
holds an empty index. -/
def emptyIndexFile : VectorIndex Nat :=
  { emptyVectorIndex with
    dirs := [(qs "k1", { files := [(qs "Flat_1.faiss", [])] }), (qs "k2", { files := [] })] }

/-- A sample object with the ids 0 and 1 of `k1` added to the memory shard and pending in
`segmentIds`, not dumped yet. -/
def pendingBatch : VectorIndex Nat :=
  { emptyVectorIndex with
    flatIndexHash := [(qs "k1", [(0, [8]), (1, [9])])]
    segmentIds := [0, 1] }

/-- The object after a dump of `k1` whose file write failed: no file, no memory shard, and
two rows in `k1.db`. -/
def rowsWithoutFile : VectorIndex Nat :=
  { emptyVectorIndex with
    dbs := [(qs "k1.db",
        { metadata := []
          segments :=
            [{ id := 0, deleteBit := 1, content := qs "Flat_1.faiss" },
              { id := 1, deleteBit := 1, content := qs "Flat_1.faiss" }] }),
      (qs "k2.db", { metadata := [], segments := [] })] }

/-- One call of a client on a `VectorIndex` object. -/
inductive IndexCall (F : Type) where
  | create (d : Nat) (embeddings : List F) (ids : List Int) (indexKey : QString) : IndexCall F
  | update (d : Nat) (embeddings : List F) (ids : List Int) (indexKey : QString) : IndexCall F
  | delete (indexKey : QString) (deleteID : List Int) : IndexCall F

/-- The object after one call; `none` when the call does not return. -/
def runCall {F : Type} (env : IndexEnv F) (vi : VectorIndex F) : IndexCall F → Option (VectorIndex F)
  | IndexCall.create d embeddings ids indexKey =>
    (createIndex env vi d embeddings ids indexKey).map Prod.snd
  | IndexCall.update d embeddings ids indexKey =>
    (updateIndex env vi d embeddings ids indexKey).map Prod.snd
  | IndexCall.delete indexKey deleteID => some (deleteIndex env vi indexKey deleteID).2

/-- The object after a sequence of calls. -/
def runCalls {F : Type} (env : IndexEnv F) : VectorIndex F → List (IndexCall F) → Option (VectorIndex F)
  | vi, [] => some vi
  | vi, call :: calls =>
    match runCall env vi call with
    | none => none
    | some vi2 => runCalls env vi2 calls

/-- Five times the character U+1F600, which is outside the Basic Multilingual Plane: ten
code units, five surrogate pairs. -/
def fiveEmoji : QString := (List.replicate 5 (utf16 (Char.ofNat 0x1F600))).flatten

/-! ## Chunker: lemmas -/

theorem mid_length_le (text : QString) (pos n : Nat) : (mid text pos n).length ≤ n := by
  simp [mid, List.length_take]

theorem textsSplitSize_spec (kMax : Nat) (hk : 0 < kMax) :
    ∀ (fuel : Nat) (text : QString) (splits : List QString) (over : QString) (pos : Nat),
      text.length - pos < fuel →
      ∃ new tail, textsSplitSize kMax fuel text splits over pos = some (splits ++ new, over ++ tail)
        ∧ (∀ c ∈ new, c.length = kMax) ∧ tail.length < kMax
        ∧ new.flatten ++ tail = text.drop pos := by
  intro fuel
  induction fuel with
  | zero =>
    intro text splits over pos h
    exact absurd h (Nat.not_lt_zero _)
  | succ fuel ih =>
    intro text splits over pos h
    unfold textsSplitSize
    by_cases hpos : pos ≥ text.length
    · refine ⟨[], [], by simp [hpos], by simp, hk, ?_⟩
      simp [List.drop_eq_nil_of_le hpos]
    · simp only [hpos, if_false]
      by_cases hpart : (mid text pos kMax).length < kMax
      · refine ⟨[], mid text pos kMax, by simp [hpart], by simp, hpart, ?_⟩
        simp only [List.flatten_nil, List.nil_append, mid]
        apply List.take_of_length_le
        simp only [mid, List.length_take] at hpart
        omega
      · simp only [hpart, if_false]
        have hlen : (mid text pos kMax).length = kMax :=
          Nat.le_antisymm (mid_length_le _ _ _) (Nat.le_of_not_lt hpart)
        obtain ⟨new, tail, he, hn, ht, hj⟩ :=
          ih text (splits ++ [mid text pos kMax]) over (pos + kMax) (by omega)
        refine ⟨mid text pos kMax :: new, tail, ?_, ?_, ht, ?_⟩
        · rw [he]; simp
        · intro c hc
          rcases List.mem_cons.mp hc with rfl | hc
          · exact hlen
          · exact hn c hc
        · simp only [List.flatten_cons, List.append_assoc, hj, mid]
          rw [← List.drop_drop, List.take_append_drop]

theorem spliterLoop_spec (kMin kMax : Nat) (hk : kMin < kMax) :
    ∀ (frags chunks : List QString) (over : QString),
      (∀ c ∈ chunks, kMin < c.length ∧ c.length ≤ kMax) → over.length ≤ kMax →
      ∃ chunks2 over2, spliterLoop kMin kMax frags chunks over = some (chunks2, over2)
        ∧ (∀ c ∈ chunks2, kMin < c.length ∧ c.length ≤ kMax) ∧ over2.length ≤ kMax
        ∧ chunks2.flatten ++ over2 = chunks.flatten ++ over ++ frags.flatten := by
  intro frags
  induction frags with
  | nil =>
    intro chunks over hc ho
    exact ⟨chunks, over, rfl, hc, ho, by simp⟩
  | cons t rest ih =>
    intro chunks over hc ho
    unfold spliterLoop
    by_cases hbig : (over ++ t).length > kMax
    · obtain ⟨new, tail, he, hn, ht, hj⟩ :=
        textsSplitSize_spec kMax (by omega) ((over ++ t).length + 1) (over ++ t) chunks [] 0
          (by omega)
      have hc2 : ∀ c ∈ chunks ++ new, kMin < c.length ∧ c.length ≤ kMax := by
        intro c hmem
        rcases List.mem_append.mp hmem with h | h
        · exact hc c h
        · have := hn c h; omega
      obtain ⟨chunks2, over2, he2, hc3, ho2, hj2⟩ :=
        ih (chunks ++ new) ([] ++ tail) hc2 (by simp; omega)
      refine ⟨chunks2, over2, ?_, hc3, ho2, ?_⟩
      · simp only [hbig, if_true, he, he2]
      · rw [hj2]
        simp only [List.drop_zero] at hj
        simp only [List.flatten_append, List.nil_append, List.append_assoc, List.flatten_cons]
        rw [← List.append_assoc new.flatten, hj]
        simp
    · simp only [hbig, if_false]
      by_cases hmid : (over ++ t).length > kMin ∧ (over ++ t).length < kMax
      · have hc2 : ∀ c ∈ chunks ++ [over ++ t], kMin < c.length ∧ c.length ≤ kMax := by
          intro c hmem
          rcases List.mem_append.mp hmem with h | h
          · exact hc c h
          · rw [List.mem_singleton.mp h]; omega
        obtain ⟨chunks2, over2, he2, hc3, ho2, hj2⟩ :=
          ih (chunks ++ [over ++ t]) [] hc2 (by simp)
        refine ⟨chunks2, over2, ?_, hc3, ho2, ?_⟩
        · simp only [hmid, and_self, if_true, he2]
        · rw [hj2]; simp
      · obtain ⟨chunks2, over2, he2, hc3, ho2, hj2⟩ :=
          ih chunks (over ++ t) hc (by omega)
        refine ⟨chunks2, over2, ?_, hc3, ho2, ?_⟩
        · simp only [hmid, if_false, he2]
        · rw [hj2]; simp

theorem appendToLast_length (over : QString) :
    ∀ chunks : List QString, (appendToLast chunks over).length = chunks.length
  | [] => rfl
  | [_] => rfl
  | _ :: d :: cs => by
    simp only [appendToLast, List.length_cons, appendToLast_length over (d :: cs)]

theorem appendToLast_dropLast (over : QString) :
    ∀ chunks : List QString, (appendToLast chunks over).dropLast = chunks.dropLast
  | [] => rfl
  | [_] => rfl
  | c :: d :: cs => by
    have ih := appendToLast_dropLast over (d :: cs)
    have hne : appendToLast (d :: cs) over ≠ [] := by
      intro h
      have := appendToLast_length over (d :: cs)
      rw [h] at this
      simp at this
    obtain ⟨x, xs, hx⟩ := List.exists_cons_of_ne_nil hne
    simp only [appendToLast, hx, List.dropLast_cons₂] at ih ⊢
    rw [ih]

theorem appendToLast_mem (over : QString) (lo hi : Nat) :
    ∀ chunks : List QString, (∀ c ∈ chunks, lo < c.length ∧ c.length ≤ hi) →
      ∀ c ∈ appendToLast chunks over, lo < c.length ∧ c.length ≤ hi + over.length
  | [], _, c, hc => by simp [appendToLast] at hc
  | [a], h, c, hc => by
    simp only [appendToLast, List.mem_singleton] at hc
    have := h a (by simp)
    subst hc
    simp only [List.length_append]
    omega
  | a :: d :: cs, h, c, hc => by
    simp only [appendToLast, List.mem_cons] at hc
    rcases hc with rfl | hc
    · have := h c (by simp); omega
    · exact appendToLast_mem over lo hi (d :: cs) (fun x hx => h x (List.mem_cons_of_mem _ hx)) c
        (by simpa [appendToLast] using hc)

theorem spliterFlush_bounds (kMin kMax : Nat) (chunks : List QString) (over : QString)
    (hc : ∀ c ∈ chunks, kMin < c.length ∧ c.length ≤ kMax) (ho : over.length ≤ kMax) :
    (∀ c ∈ (spliterFlush kMin chunks over).dropLast, kMin < c.length ∧ c.length ≤ kMax)
      ∧ (∀ c ∈ spliterFlush kMin chunks over, c.length ≤ kMax + kMin)
      ∧ (2 ≤ (spliterFlush kMin chunks over).length →
          ∀ c ∈ spliterFlush kMin chunks over, kMin < c.length) := by
  unfold spliterFlush
  by_cases h1 : over.length > kMin
  · simp only [h1, if_true, List.dropLast_concat]
    refine ⟨hc, ?_, ?_⟩
    · intro c hmem
      rcases List.mem_append.mp hmem with h | h
      · have := hc c h; omega
      · rw [List.mem_singleton.mp h]; omega
    · intro _ c hmem
      rcases List.mem_append.mp hmem with h | h
      · exact (hc c h).1
      · rw [List.mem_singleton.mp h]; exact h1
  · simp only [h1, if_false]
    cases chunks with
    | nil =>
      simp only [List.isEmpty_nil, if_true, List.nil_append, List.dropLast_single,
        List.mem_singleton, List.length_singleton]
      refine ⟨by simp, ?_, by omega⟩
      intro c h; subst h; omega
    | cons a as =>
      simp only [List.isEmpty_cons, Bool.false_eq_true, if_false]
      rw [appendToLast_dropLast]
      have hm := appendToLast_mem over kMin kMax (a :: as) hc
      refine ⟨fun c h => hc c (List.mem_of_mem_dropLast h), ?_, ?_⟩
      · intro c h; have := hm c h; omega
      · intro _ c h; exact (hm c h).1

/-! ## Chunker: chunk lengths (C1) -/

/-- C1, as the code has it: for `MIN_CHUNK < MAX_CHUNK` the chunker returns a chunk list in
which every chunk but the last has length in `(MIN_CHUNK, MAX_CHUNK]`, every chunk has
length at most `MAX_CHUNK + MIN_CHUNK` (the last one may have absorbed the final overflow),
and, when there are two chunks or more, every chunk is longer than `MIN_CHUNK`. A length
is what `QString::length()` returns, the number of UTF-16 code units. -/
theorem textsSpliter_chunk_lengths (kMin kMax : Nat) (hk : kMin < kMax) (texts : QString) :
    ∃ chunks, textsSpliter kMin kMax texts = some chunks
      ∧ (∀ c ∈ chunks.dropLast, kMin < c.length ∧ c.length ≤ kMax)
      ∧ (∀ c ∈ chunks, c.length ≤ kMax + kMin)
      ∧ (2 ≤ chunks.length → ∀ c ∈ chunks, kMin < c.length) := by
  obtain ⟨chunks, over, he, hc, ho, _⟩ :=
    spliterLoop_spec kMin kMax hk (splitSkipEmpty (normalizeText texts)) [] []
      (by simp) (by simp)
  refine ⟨spliterFlush kMin chunks over, ?_, spliterFlush_bounds kMin kMax chunks over hc ho⟩
  simp only [textsSpliter, he]

/-- Witness of `textsSpliter_chunk_lengths` at `MIN_CHUNK = 2`, `MAX_CHUNK = 4`: the text
`abc.defgh.i` yields the two chunks `abc` and `defghi`, of lengths 3 and 6. -/
theorem textsSpliter_chunk_lengths_witness :
    2 < 4 ∧ textsSpliter 2 4 (qs "abc.defgh.i") = some [qs "abc", qs "defghi"]
      ∧ ∃ chunks, textsSpliter 2 4 (qs "abc.defgh.i") = some chunks
        ∧ (∀ c ∈ chunks.dropLast, 2 < c.length ∧ c.length ≤ 4)
        ∧ (∀ c ∈ chunks, c.length ≤ 4 + 2)
        ∧ (2 ≤ chunks.length → ∀ c ∈ chunks, 2 < c.length) :=
  ⟨by decide, by decide, textsSpliter_chunk_lengths 2 4 (by decide) (qs "abc.defgh.i")⟩

/-- C1 fails as stated: with `MIN_CHUNK = 2`, `MAX_CHUNK = 4` the text `abcd.e` yields the
single chunk `abcde` of length 5 > `MAX_CHUNK`, and the text `a` yields the single chunk
`a` of length 1 < `MIN_CHUNK`. And the lengths that the chunker bounds are counts of code
units, not of code points: five times U+1F600 are ten code units, cut into the first two
and the last three characters, chunks of 4 and 6 code units but of 2 and 3 code points,
the first one not above `MIN_CHUNK`. -/
theorem textsSpliter_chunk_interval_counterexample :
    (textsSpliter 2 4 (qs "abcd.e") = some [qs "abcde"] ∧ ¬ (qs "abcde").length ≤ 4)
      ∧ (textsSpliter 2 4 (qs "a") = some [qs "a"] ∧ ¬ 2 ≤ (qs "a").length)
      ∧ (fiveEmoji
            = [0xD83D, 0xDE00, 0xD83D, 0xDE00, 0xD83D, 0xDE00, 0xD83D, 0xDE00, 0xD83D, 0xDE00]
        ∧ codePoints fiveEmoji = 5
        ∧ textsSpliter 2 4 fiveEmoji
            = some [[0xD83D, 0xDE00, 0xD83D, 0xDE00],
                [0xD83D, 0xDE00, 0xD83D, 0xDE00, 0xD83D, 0xDE00]]
        ∧ codePoints [0xD83D, 0xDE00, 0xD83D, 0xDE00] = 2
        ∧ ¬ 2 < codePoints [0xD83D, 0xDE00, 0xD83D, 0xDE00]
        ∧ codePoints [0xD83D, 0xDE00, 0xD83D, 0xDE00, 0xD83D, 0xDE00] = 3) := by
  decide

/-! ## Embedding client: lemmas -/

theorem midList_length (texts : List QString) (pos n : Nat) :
    (midList texts pos n).length = min n (texts.length - pos) := by
  simp [midList, List.length_take, List.length_drop]

theorem embeddingTextsLoop_eq {V : Type} (api : List QString → List V) :
    ∀ (fuel : Nat) (texts : List QString) (currentIndex : Nat) (vectors : List V),
      texts.length - currentIndex < fuel →
      embeddingTextsLoop api fuel texts currentIndex vectors
        = some (vectors ++ ((subLists fuel texts currentIndex).map api).flatten) := by
  intro fuel
  induction fuel with
  | zero => intro texts currentIndex vectors h; exact absurd h (Nat.not_lt_zero _)
  | succ fuel ih =>
    intro texts currentIndex vectors h
    unfold embeddingTextsLoop subLists
    by_cases hlt : currentIndex < texts.length
    · simp only [hlt, if_true]
      rw [ih texts (currentIndex + 15) _ (by omega)]
      simp
    · simp [hlt]

theorem subLists_flatten :
    ∀ (fuel : Nat) (texts : List QString) (currentIndex : Nat),
      texts.length - currentIndex < fuel →
      (subLists fuel texts currentIndex).flatten = texts.drop currentIndex := by
  intro fuel
  induction fuel with
  | zero => intro texts currentIndex h; exact absurd h (Nat.not_lt_zero _)
  | succ fuel ih =>
    intro texts currentIndex h
    unfold subLists
    by_cases hlt : currentIndex < texts.length
    · simp only [hlt, if_true, List.flatten_cons]
      rw [ih texts (currentIndex + 15) (by omega), midList, ← List.drop_drop,
        List.take_append_drop]
    · simp only [hlt, if_false, List.flatten_nil]
      exact (List.drop_eq_nil_of_le (by omega)).symm

theorem subLists_sizes :
    ∀ (fuel : Nat) (texts : List QString) (currentIndex : Nat),
      ∀ b ∈ subLists fuel texts currentIndex, 1 ≤ b.length ∧ b.length ≤ 15 := by
  intro fuel
  induction fuel with
  | zero => intro texts currentIndex b hb; simp [subLists] at hb
  | succ fuel ih =>
    intro texts currentIndex b hb
    unfold subLists at hb
    by_cases hlt : currentIndex < texts.length
    · simp only [hlt, if_true, List.mem_cons] at hb
      rcases hb with rfl | hb
      · rw [midList_length]; omega
      · exact ih texts (currentIndex + 15) b hb
    · simp [hlt] at hb

theorem subLists_index {V : Type} (api : List QString → List V) :
    ∀ (fuel : Nat) (texts : List QString) (currentIndex n : Nat),
      texts.length - currentIndex < fuel →
      (∀ b ∈ subLists fuel texts currentIndex, (api b).length = b.length) →
      currentIndex + n < texts.length →
      ∃ b, (subLists fuel texts currentIndex)[n / 15]? = some b
        ∧ b[n % 15]? = texts[currentIndex + n]?
        ∧ (((subLists fuel texts currentIndex).map api).flatten)[n]? = (api b)[n % 15]? := by
  intro fuel
  induction fuel with
  | zero => intro texts currentIndex n h; exact absurd h (Nat.not_lt_zero _)
  | succ fuel ih =>
    intro texts currentIndex n h hapi hn
    have hlt : currentIndex < texts.length := by omega
    unfold subLists at hapi ⊢
    simp only [hlt, if_true] at hapi ⊢
    have hb0 := hapi (midList texts currentIndex 15) (by simp)
    by_cases hsmall : n < 15
    · refine ⟨midList texts currentIndex 15, ?_, ?_, ?_⟩
      · simp [Nat.div_eq_of_lt hsmall]
      · rw [Nat.mod_eq_of_lt hsmall, midList, List.getElem?_take_of_lt hsmall,
          List.getElem?_drop]
      · rw [Nat.mod_eq_of_lt hsmall, List.map_cons, List.flatten_cons]
        apply List.getElem?_append_left
        rw [hb0, midList_length]; omega
    · obtain ⟨m, rfl⟩ : ∃ m, n = m + 15 := ⟨n - 15, by omega⟩
      obtain ⟨b, h1, h2, h3⟩ := ih texts (currentIndex + 15) m (by omega)
        (fun b hb => hapi b (List.mem_cons_of_mem _ hb)) (by omega)
      have hlen0 : (api (midList texts currentIndex 15)).length = 15 := by
        rw [hb0, midList_length]; omega
      refine ⟨b, ?_, ?_, ?_⟩
      · rw [Nat.add_div_right m (by decide : 0 < 15)]
        simpa using h1
      · rw [Nat.add_mod_right, h2]
        congr 1; omega
      · rw [Nat.add_mod_right, List.map_cons, List.flatten_cons,
          List.getElem?_append_right (by omega), hlen0]
        simpa using h3

theorem flatten_map_length {V : Type} (api : List QString → List V) :
    ∀ bs : List (List QString), (∀ b ∈ bs, (api b).length = b.length) →
      ((bs.map api).flatten).length = bs.flatten.length
  | [], _ => rfl
  | b :: bs, h => by
    simp only [List.map_cons, List.flatten_cons, List.length_append]
    rw [h b (by simp), flatten_map_length api bs (fun c hc => h c (List.mem_cons_of_mem _ hc))]

theorem embeddingTexts_eq {V : Type} (api : List QString → List V) (texts : List QString) :
    embeddingTexts api texts = some (((sentBatches texts).map api).flatten) := by
  unfold embeddingTexts sentBatches
  cases texts with
  | nil => simp [subLists]
  | cons t ts =>
    simp only [List.isEmpty_cons, Bool.false_eq_true, if_false]
    rw [embeddingTextsLoop_eq api _ _ 0 [] (by simp)]
    simp

/-! ## Embedding client: batching and order (C7) -/

/-- C7: `embeddingTexts` sends the texts as consecutive sub-batches of 1 to 15 texts whose
concatenation is the input; when the endpoint answers every sub-batch with as many vectors
as texts, the call returns as many vectors as texts, and the `i`-th vector is the vector at
the position of the `i`-th text in the reply to the sub-batch holding that text. -/
theorem embeddingTexts_order {V : Type} (api : List QString → List V) (texts : List QString)
    (hapi : ∀ b ∈ sentBatches texts, (api b).length = b.length) :
    (sentBatches texts).flatten = texts
      ∧ (∀ b ∈ sentBatches texts, 1 ≤ b.length ∧ b.length ≤ 15)
      ∧ ∃ vectors, embeddingTexts api texts = some vectors
          ∧ vectors = ((sentBatches texts).map api).flatten
          ∧ vectors.length = texts.length
          ∧ ∀ i, i < texts.length →
              ∃ b, (sentBatches texts)[i / 15]? = some b ∧ b[i % 15]? = texts[i]?
                ∧ vectors[i]? = (api b)[i % 15]? := by
  have hflat : (sentBatches texts).flatten = texts := by
    unfold sentBatches
    rw [subLists_flatten _ _ 0 (by omega)]
    simp
  refine ⟨hflat, subLists_sizes _ _ _, _, embeddingTexts_eq api texts, rfl, ?_, ?_⟩
  · rw [flatten_map_length api _ hapi, hflat]
  · intro i hi
    have := subLists_index api (texts.length + 1) texts 0 i (by omega) hapi (by omega)
    simpa [sentBatches] using this

/-- Witness of `embeddingTexts_order`: seventeen texts, sent as a sub-batch of 15 and one
of 2. -/
theorem embeddingTexts_order_witness :
    (∀ b ∈ sentBatches sampleTexts, (sampleApi b).length = b.length)
      ∧ (sentBatches sampleTexts).flatten = sampleTexts
      ∧ (∀ b ∈ sentBatches sampleTexts, 1 ≤ b.length ∧ b.length ≤ 15)
      ∧ ∃ vectors, embeddingTexts sampleApi sampleTexts = some vectors
          ∧ vectors = ((sentBatches sampleTexts).map sampleApi).flatten
          ∧ vectors.length = sampleTexts.length
          ∧ ∀ i, i < sampleTexts.length →
              ∃ b, (sentBatches sampleTexts)[i / 15]? = some b ∧ b[i % 15]? = sampleTexts[i]?
                ∧ vectors[i]? = (sampleApi b)[i % 15]? :=
  ⟨by decide, embeddingTexts_order sampleApi sampleTexts (by decide)⟩

/-! ## Ingest: lemmas -/

theorem embedAndStore_false {V : Type} (env : Env V) (e e2 : Embedding V) (path : QString)
    (chunks : List QString) (h : embedAndStore env e path chunks = some (false, e2)) :
    e2 = e := by
  unfold embedAndStore at h
  rw [embeddingTexts_eq] at h
  simp only at h
  split_ifs at h <;> simp_all

theorem embeddingDocument_false {V : Type} (env : Env V) (e e2 : Embedding V)
    (path : QString) (h : embeddingDocument env e path = some (false, e2)) : e2 = e := by
  unfold embeddingDocument at h
  split_ifs at h
  any_goals simp_all
  split at h
  · simp at h
  · split_ifs at h
    · simp_all
    · exact embedAndStore_false env e e2 path _ h

theorem embeddingDocumentSaveAs_false {V : Type} (env : Env V) (e e2 : Embedding V)
    (path : QString) (h : embeddingDocumentSaveAs env e path = some (false, e2)) : e2 = e := by
  unfold embeddingDocumentSaveAs at h
  simp only at h
  split_ifs at h
  any_goals simp_all
  split at h
  · simp at h
  · exact embedAndStore_false env e e2 _ _ h

theorem short_batches_total_lt {V : Type} (api : List QString → List V) :
    ∀ bs : List (List QString), (∀ b ∈ bs, (api b).length ≤ b.length) →
      (∃ b ∈ bs, (api b).length ≠ b.length) →
      ((bs.map api).flatten).length < bs.flatten.length
  | [], _, h => by simp at h
  | b :: bs, hle, hne => by
    simp only [List.map_cons, List.flatten_cons, List.length_append]
    have hb := hle b (by simp)
    have hle2 : ∀ c ∈ bs, (api c).length ≤ c.length := fun c hc =>
      hle c (List.mem_cons_of_mem _ hc)
    by_cases hrest : ∃ c ∈ bs, (api c).length ≠ c.length
    · have := short_batches_total_lt api bs hle2 hrest
      omega
    · have heq : ∀ c ∈ bs, (api c).length = c.length := by
        intro c hc
        by_contra hcon
        exact hrest ⟨c, hc, hcon⟩
      have := flatten_map_length api bs heq
      obtain ⟨c, hc, hcne⟩ := hne
      rcases List.mem_cons.mp hc with rfl | hc
      · omega
      · exact absurd (heq c hc) hcne

theorem embedAndStore_mismatch {V : Type} (env : Env V) (e : Embedding V) (path : QString)
    (chunks : List QString)
    (h : (((sentBatches chunks).map env.onHttpEmbedding).flatten).length ≠ chunks.length) :
    embedAndStore env e path chunks = some (false, e) := by
  unfold embedAndStore
  rw [embeddingTexts_eq]
  simp only [h, ne_eq, not_false_eq_true, if_true]

/-! ## Ingest: failure leaves the caches alone (C6) -/

/-- C6: when `embeddingDocument` or `embeddingDocumentSaveAs` returns false, the vector
cache and the data cache of the object are what they were before the call. -/
theorem ingest_failure_atomic {V : Type} (env : Env V) (e e2 : Embedding V) (path : QString)
    (h : embeddingDocument env e path = some (false, e2)
      ∨ embeddingDocumentSaveAs env e path = some (false, e2)) :
    e2.embedVectorCache = e.embedVectorCache ∧ e2.embedDataCache = e.embedDataCache := by
  have : e2 = e := by
    rcases h with h | h
    · exact embeddingDocument_false env e e2 path h
    · exact embeddingDocumentSaveAs_false env e e2 path h
  subst this
  exact ⟨rfl, rfl⟩

/-- Witness of `ingest_failure_atomic`: indexing `/a` a second time fails as a duplicate. -/
theorem ingest_failure_atomic_witness :
    (embeddingDocument sampleEnv stateA (qs "/a") = some (false, stateA)
      ∨ embeddingDocumentSaveAs sampleEnv stateA (qs "/a") = some (false, stateA))
      ∧ stateA.embedVectorCache = stateA.embedVectorCache
      ∧ stateA.embedDataCache = stateA.embedDataCache :=
  ⟨Or.inl (by decide),
    ingest_failure_atomic sampleEnv stateA stateA (qs "/a") (Or.inl (by decide))⟩

/-! ## Ingest: vector count check (C8) -/

/-- C8, as the code has it: the ingest compares the total number of vectors returned over
all sub-batches with the number of chunks. When the two differ, and so in particular when
some sub-batch returns a wrong count and no sub-batch returns more vectors than it has
texts, both ingest functions return false and leave the object as it was. -/
theorem ingest_count_mismatch_fails {V : Type} (env : Env V) (e : Embedding V)
    (path : QString) (chunks : List QString)
    (hbad : (((sentBatches chunks).map env.onHttpEmbedding).flatten).length ≠ chunks.length
      ∨ ((∀ b ∈ sentBatches chunks, (env.onHttpEmbedding b).length ≤ b.length)
          ∧ ∃ b ∈ sentBatches chunks, (env.onHttpEmbedding b).length ≠ b.length)) :
    (∀ cs, documentChunks env path = some cs → capChunks cs = chunks →
        embeddingDocument env e path = some (false, e))
      ∧ (textsSpliter env.kMinChunksSize env.kMaxChunksSize (env.convertFile path)
            = some chunks →
          embeddingDocumentSaveAs env e path = some (false, e)) := by
  have htotal :
      (((sentBatches chunks).map env.onHttpEmbedding).flatten).length ≠ chunks.length := by
    rcases hbad with h | ⟨hle, hne⟩
    · exact h
    · have hlt := short_batches_total_lt env.onHttpEmbedding (sentBatches chunks) hle hne
      have hflat : (sentBatches chunks).flatten = chunks := by
        unfold sentBatches
        rw [subLists_flatten _ _ 0 (by omega)]
        simp
      rw [hflat] at hlt
      omega
  constructor
  · intro cs hcs hcap
    unfold embeddingDocument
    split_ifs
    any_goals rfl
    simp only [hcs]
    split_ifs
    · rfl
    · rw [hcap]; exact embedAndStore_mismatch env e path chunks htotal
  · intro hcs
    unfold embeddingDocumentSaveAs
    simp only
    split_ifs
    any_goals rfl
    simp only [hcs]
    exact embedAndStore_mismatch env e _ chunks htotal

/-- Witness of `ingest_count_mismatch_fails`: the endpoint returns nothing for the two
chunks of `/a`. -/
theorem ingest_count_mismatch_fails_witness :
    ((((sentBatches [qs "aaa", qs "bbb"]).map silentEnv.onHttpEmbedding).flatten).length
          ≠ [qs "aaa", qs "bbb"].length
        ∨ ((∀ b ∈ sentBatches [qs "aaa", qs "bbb"], (silentEnv.onHttpEmbedding b).length ≤ b.length)
          ∧ ∃ b ∈ sentBatches [qs "aaa", qs "bbb"], (silentEnv.onHttpEmbedding b).length ≠ b.length))
      ∧ documentChunks silentEnv (qs "/a") = some [qs "aaa", qs "bbb"]
      ∧ capChunks [qs "aaa", qs "bbb"] = [qs "aaa", qs "bbb"]
      ∧ embeddingDocument silentEnv emptyEmbedding (qs "/a") = some (false, emptyEmbedding) :=
  ⟨Or.inl (by decide), by decide, by decide,
    (ingest_count_mismatch_fails silentEnv emptyEmbedding (qs "/a") [qs "aaa", qs "bbb"]
      (Or.inl (by decide))).1 [qs "aaa", qs "bbb"] (by decide) (by decide)⟩

/-- C8 fails as stated: of the 16 chunks of `/long`, the first sub-batch (15 texts) gets 14
vectors and the second (1 text) gets 2; the total is 16, the ingest returns true and caches
ids 0 to 15. -/
theorem ingest_compensating_mismatch_counterexample :
    documentChunks shiftingEnv (qs "/long") = some (List.replicate 16 (qs "aaa"))
      ∧ sentBatches (capChunks (List.replicate 16 (qs "aaa")))
          = [List.replicate 15 (qs "aaa"), [qs "aaa"]]
      ∧ (shiftingEnv.onHttpEmbedding (List.replicate 15 (qs "aaa"))).length = 14
      ∧ (shiftingEnv.onHttpEmbedding [qs "aaa"]).length = 2
      ∧ (embeddingDocument shiftingEnv emptyEmbedding (qs "/long")).map
            (fun r => (r.1, QMap.keys r.2.embedDataCache))
          = some (true, [0, 1, 2, 3, 4, 5, 6, 7, 8, 9, 10, 11, 12, 13, 14, 15]) := by
  decide

/-! ## Id allocation after a delete (C2) -/

/-- C2 at a failing run: `/a` (ids 0, 1) and `/b` (id 2) are indexed, `/a` is deleted; the
cache then holds id 2 alone, yet the next `continueID` is `1 + 0 = 1`, not greater than 2,
and indexing the two chunks of `/c` writes ids 1 and 2, replacing the entry of `/b`. -/
theorem continueID_collides_after_delete :
    embeddingDocument sampleEnv emptyEmbedding (qs "/a") = some (true, stateA)
      ∧ embeddingDocument sampleEnv stateA (qs "/b") = some (true, stateAB)
      ∧ deleteCacheIndex stateAB [qs "/a"] = stateB
      ∧ QMap.keys stateB.embedDataCache = [2]
      ∧ firstContinueID stateB = 1
      ∧ embeddingDocument sampleEnv stateB (qs "/c") = some (true, stateC)
      ∧ QMap.value stateB.embedDataCache 2 ([], []) = (qs "/b", qs "ccc")
      ∧ QMap.value stateC.embedDataCache 2 ([], []) = (qs "/c", qs "eee") := by
  decide

/-! ## The two caches after a search (C4) -/

/-- C4 at a failing run: `/b` is indexed (id 0) and deleted again, both caches are empty;
a search whose cache hit list still names id 0 reads it through `getDataCacheFromID`,
which leaves the entry `0 -> ("", "")` in the data cache and none in the vector cache. -/
theorem search_inserts_empty_entry :
    embeddingDocument sampleEnv emptyEmbedding (qs "/b") = some (true, stateOnlyB)
      ∧ deleteCacheIndex stateOnlyB [qs "/b"] = emptyEmbedding
      ∧ loadTextsFromSearch sampleEnv 2 emptyEmbedding 1 [((5 : Nat), (0 : Int))] []
          = some (SearchOutput.doc [{ source := [], content := [], distance := 5 }], stateStale)
      ∧ QMap.keys stateStale.embedDataCache = [0]
      ∧ QMap.keys stateStale.embedVectorCache = []
      ∧ QMap.value stateStale.embedDataCache 0 (qs "?", qs "?") = ([], []) := by
  decide

/-! ## Indexing a document twice (C5) -/

/-- C5 at a failing run: the document `/dots` holds a lone full stop; its chunk list is the
one empty chunk, which the insert loop skips; the first `embeddingDocument` returns true
with nothing cached, and so does the second. -/
theorem duplicate_ingest_of_empty_chunk_document :
    sampleEnv.convertFile (qs "/dots") = qs "."
      ∧ textsSpliter sampleEnv.kMinChunksSize sampleEnv.kMaxChunksSize (qs ".") = some [[]]
      ∧ embeddingDocument sampleEnv emptyEmbedding (qs "/dots") = some (true, emptyEmbedding)
      ∧ ((embeddingDocument sampleEnv emptyEmbedding (qs "/dots")).bind fun r =>
            embeddingDocument sampleEnv r.2 (qs "/dots"))
          = some (true, emptyEmbedding) := by
  decide

/-! ## Id allocation: lemmas -/

theorem QMap.find_insert {T : Type} (k : Int) (v : T) (k2 : Int) :
    ∀ m : QMap T, QMap.find (QMap.insert k v m) k2 = if k2 = k then some v else QMap.find m k2
  | [] => by
    by_cases h : k2 = k
    · simp [QMap.insert, QMap.find, h]
    · have h2 : ¬ k = k2 := fun hc => h hc.symm
      simp [QMap.insert, QMap.find, h, h2]
  | (k3, v3) :: m => by
    have ih := QMap.find_insert k v k2 m
    unfold QMap.insert
    by_cases h1 : k < k3
    · simp only [h1, if_true]
      by_cases h : k2 = k
      · simp [QMap.find, h]
      · have h2 : ¬ k = k2 := fun hc => h hc.symm
        simp [QMap.find, h, h2]
    · simp only [h1, if_false]
      by_cases h3 : k = k3
      · subst h3
        simp only [if_true]
        by_cases h : k2 = k
        · simp [QMap.find, h]
        · have h2 : ¬ k = k2 := fun hc => h hc.symm
          simp [QMap.find, h, h2]
      · simp only [h3, if_false]
        by_cases h : k3 = k2
        · subst h
          have h4 : ¬ k3 = k := fun hc => h3 hc.symm
          simp [QMap.find, h4]
        · have hf : QMap.find ((k3, v3) :: QMap.insert k v m) k2
              = QMap.find (QMap.insert k v m) k2 := by
            simp [QMap.find, h]
          have hg : QMap.find ((k3, v3) :: m) k2 = QMap.find m k2 := by
            simp [QMap.find, h]
          rw [hf, hg, ih]

theorem selectLastSegmentId_max (db : EmbedDB) (m : Int)
    (hmem : ∃ r ∈ db.segments, r.id = m) (hmax : ∀ r ∈ db.segments, r.id ≤ m) :
    selectLastSegmentId db = [m] := by
  unfold selectLastSegmentId
  have hfold : ∀ (xs : List Int) (x : Int), (∀ y ∈ xs, y ≤ m) → x ≤ m →
      (x = m ∨ m ∈ xs) → xs.foldl max x = m := by
    intro xs
    induction xs with
    | nil =>
      intro x _ _ h
      rcases h with h | h
      · simpa using h
      · simp at h
    | cons y ys ih =>
      intro x hys hx h
      simp only [List.foldl_cons]
      have hy : y ≤ m := hys y (by simp)
      apply ih (max x y) (fun z hz => hys z (List.mem_cons_of_mem _ hz)) (max_le hx hy)
      rcases h with h | h
      · left; subst h; exact max_eq_left hy
      · rcases List.mem_cons.mp h with h | h
        · left; subst h; exact max_eq_right hx
        · right; exact h
  obtain ⟨r, hr, hrm⟩ := hmem
  have hm : m ∈ db.segments.map (fun r => r.id) := List.mem_map.mpr ⟨r, hr, hrm⟩
  have hall : ∀ y ∈ db.segments.map (fun r => r.id), y ≤ m := by
    intro y hy
    obtain ⟨r2, hr2, rfl⟩ := List.mem_map.mp hy
    exact hmax r2 hr2
  cases hl : db.segments.map (fun r => r.id) with
  | nil => rw [hl] at hm; simp at hm
  | cons x xs =>
    rw [hl] at hm hall
    simp only
    rw [hfold xs x (fun y hy => hall y (List.mem_cons_of_mem _ hy)) (hall x (by simp))
      (by rcases List.mem_cons.mp hm with h | h; exact Or.inl h.symm; exact Or.inr h)]

theorem toInt32_of_range (x : Int) (h1 : -2147483648 ≤ x) (h2 : x ≤ 2147483647) :
    toInt32 x = x := by
  unfold toInt32
  omega

theorem toInt32_range (x : Int) : -2147483648 ≤ toInt32 x ∧ toInt32 x ≤ 2147483647 := by
  unfold toInt32
  omega

theorem QMap.size_nonneg {T : Type} (m : QMap T) : 0 ≤ QMap.size m := by
  unfold QMap.size
  omega

theorem firstContinueID_empty {V : Type} (e : Embedding V) (h : e.dataBase.segments = [])
    (hsize : QMap.size e.embedDataCache ≤ 2147483647) :
    firstContinueID e = QMap.size e.embedDataCache := by
  have h0 := QMap.size_nonneg e.embedDataCache
  have hdb : getDBLastID e.dataBase = 0 := by
    simp [getDBLastID, selectLastSegmentId, h]
  unfold firstContinueID
  rw [hdb, Int.add_zero]
  exact toInt32_of_range _ (by omega) hsize

theorem firstContinueID_max {V : Type} (e : Embedding V) (m : Int)
    (hmem : ∃ r ∈ e.dataBase.segments, r.id = m) (hmax : ∀ r ∈ e.dataBase.segments, r.id ≤ m)
    (hlow : -2147483648 ≤ m) (hfit : QMap.size e.embedDataCache + m + 1 ≤ 2147483647) :
    firstContinueID e = QMap.size e.embedDataCache + m + 1 := by
  have h0 := QMap.size_nonneg e.embedDataCache
  unfold firstContinueID getDBLastID
  rw [selectLastSegmentId_max e.dataBase m hmem hmax]
  simp only
  rw [toInt32_of_range m hlow (by omega), toInt32_of_range (m + 1) (by omega) (by omega),
    toInt32_of_range _ (by omega) (by omega)]
  omega

theorem insertLoop_spec {V : Type} (src : QString) :
    ∀ (chunks : List QString) (vectors : List V) (id0 : Int) (e : Embedding V),
      -2147483648 ≤ id0 → id0 + ((keptPairs chunks vectors).length : Int) ≤ 2147483647 →
      (∀ (k : Nat) (p : QString × V), (keptPairs chunks vectors)[k]? = some p →
          QMap.find (insertLoop src chunks vectors id0 e).embedDataCache (id0 + (k : Int))
              = some (src, p.1)
            ∧ QMap.find (insertLoop src chunks vectors id0 e).embedVectorCache (id0 + (k : Int))
              = some p.2)
        ∧ (∀ id : Int, id < id0 ∨ id0 + ((keptPairs chunks vectors).length : Int) ≤ id →
            QMap.find (insertLoop src chunks vectors id0 e).embedDataCache id
                = QMap.find e.embedDataCache id
              ∧ QMap.find (insertLoop src chunks vectors id0 e).embedVectorCache id
                = QMap.find e.embedVectorCache id) := by
  intro chunks
  induction chunks with
  | nil =>
    intro vectors id0 e _ _
    simp [keptPairs, insertLoop]
  | cons c cs ih =>
    intro vectors id0 e hlow hfit
    cases vectors with
    | nil => simp [keptPairs, insertLoop]
    | cons v vs =>
      by_cases hc : c.isEmpty = true
      · have hk : keptPairs (c :: cs) (v :: vs) = keptPairs cs vs := by
          simp [keptPairs, hc]
        have hl : insertLoop src (c :: cs) (v :: vs) id0 e = insertLoop src cs vs id0 e := by
          simp [insertLoop, hc]
        rw [hk] at hfit
        rw [hk, hl]
        exact ih vs id0 e hlow hfit
      · have hk : keptPairs (c :: cs) (v :: vs) = (c, v) :: keptPairs cs vs := by
          simp [keptPairs, hc]
        rw [hk, List.length_cons] at hfit
        push_cast at hfit
        have hw : toInt32 (id0 + 1) = id0 + 1 := toInt32_of_range _ (by omega) (by omega)
        have hl : insertLoop src (c :: cs) (v :: vs) id0 e
            = insertLoop src cs vs (id0 + 1)
                { e with
                  embedDataCache := QMap.insert id0 (src, c) e.embedDataCache
                  embedVectorCache := QMap.insert id0 v e.embedVectorCache } := by
          simp [insertLoop, hc, hw]
        rw [hk, hl]
        obtain ⟨ih1, ih2⟩ := ih vs (id0 + 1)
          { e with
            embedDataCache := QMap.insert id0 (src, c) e.embedDataCache
            embedVectorCache := QMap.insert id0 v e.embedVectorCache } (by omega) (by omega)
        constructor
        · intro k p hkp
          cases k with
          | zero =>
            simp only [List.getElem?_cons_zero, Option.some.injEq] at hkp
            subst hkp
            have := ih2 id0 (Or.inl (by omega))
            simp only [QMap.find_insert, if_true] at this
            simpa using this
          | succ k =>
            simp only [List.getElem?_cons_succ] at hkp
            have := ih1 k p hkp
            have he : id0 + ((k + 1 : Nat) : Int) = id0 + 1 + (k : Int) := by push_cast; omega
            rw [he]
            exact this
        · intro id hid
          simp only [List.length_cons] at hid
          have hne : id ≠ id0 := by
            rcases hid with h | h
            · omega
            · push_cast at h; omega
          have := ih2 id (by
            rcases hid with h | h
            · left; omega
            · right; push_cast at h; omega)
          simp only [QMap.find_insert, hne, if_false] at this
          exact this

theorem keptPairs_fst {V : Type} :
    ∀ (chunks : List QString) (vectors : List V), vectors.length = chunks.length →
      (keptPairs chunks vectors).map Prod.fst = chunks.filter fun c => !c.isEmpty
  | [], _, _ => by simp [keptPairs]
  | c :: cs, [], h => by simp at h
  | c :: cs, v :: vs, h => by
    have ih := keptPairs_fst cs vs (by simpa using h)
    unfold keptPairs at ih ⊢
    by_cases hc : c.isEmpty = true
    · simp only [List.zip_cons_cons, hc, Bool.not_true, Bool.false_eq_true, not_false_eq_true,
        List.filter_cons_of_neg]
      exact ih
    · simp only [Bool.not_eq_true] at hc
      simp only [List.zip_cons_cons, hc, Bool.not_false, List.filter_cons_of_pos, List.map_cons]
      rw [ih]

theorem embedAndStore_true {V : Type} (env : Env V) (e e2 : Embedding V) (src : QString)
    (chunks : List QString) (h : embedAndStore env e src chunks = some (true, e2)) :
    ∃ vectors, embeddingTexts env.onHttpEmbedding chunks = some vectors
      ∧ vectors.length = chunks.length
      ∧ e2 = insertLoop src chunks vectors (firstContinueID e) e := by
  unfold embedAndStore at h
  cases hv : embeddingTexts env.onHttpEmbedding chunks with
  | none => rw [hv] at h; simp at h
  | some vectors =>
    rw [hv] at h
    simp only at h
    split_ifs at h with h1 h2
    · simp at h
    · simp at h
    · simp only [Option.some.injEq, Prod.mk.injEq, true_and] at h
      exact ⟨vectors, rfl, by simpa using h1, h.symm⟩

theorem embeddingDocument_true {V : Type} (env : Env V) (e e2 : Embedding V) (path : QString)
    (h : embeddingDocument env e path = some (true, e2)) :
    ∃ cs, documentChunks env path = some cs
      ∧ embedAndStore env e path (capChunks cs) = some (true, e2) := by
  unfold embeddingDocument at h
  split_ifs at h
  any_goals simp at h
  cases hd : documentChunks env path with
  | none => rw [hd] at h; simp at h
  | some cs =>
    rw [hd] at h
    simp only at h
    split_ifs at h
    · simp at h
    · exact ⟨cs, rfl, h⟩

theorem embeddingDocumentSaveAs_true {V : Type} (env : Env V) (e e2 : Embedding V)
    (path : QString) (h : embeddingDocumentSaveAs env e path = some (true, e2)) :
    ∃ cs, textsSpliter env.kMinChunksSize env.kMaxChunksSize (env.convertFile path) = some cs
      ∧ embedAndStore env e (saveAsDocPath env path) cs = some (true, e2) := by
  unfold embeddingDocumentSaveAs at h
  simp only at h
  split_ifs at h
  any_goals simp at h
  cases hd : textsSpliter env.kMinChunksSize env.kMaxChunksSize (env.convertFile path) with
  | none => rw [hd] at h; simp at h
  | some cs =>
    rw [hd] at h
    exact ⟨cs, rfl, h⟩

/-! ## Id allocation: contiguous ids (C9) -/

/-- C9, as the code has it: on a successful ingest through either function the non-empty
chunks of the chunk list (an empty chunk is given no id), in chunk order, are stored
under the consecutive ids `start`, `start + 1`, ... with their vectors and the source, and
every other id keeps what it had, as long as these ids and the id after them fit an `int`
(`start + count <= 2147483647`; `continueID` is an `int`). The first id `start` is
`|memcache| + max_persisted_id + 1` when table `segments` holds a row (`max_persisted_id`
its largest id) and this sum fits an `int`, and `|memcache|` when the table holds none. -/
theorem ingest_ids_contiguous {V : Type} (env : Env V) (e e2 : Embedding V) (path : QString)
    (h : embeddingDocument env e path = some (true, e2)
      ∨ embeddingDocumentSaveAs env e path = some (true, e2)) :
    (e.dataBase.segments = [] → QMap.size e.embedDataCache ≤ 2147483647 →
        firstContinueID e = QMap.size e.embedDataCache)
      ∧ (∀ m : Int, (∃ r ∈ e.dataBase.segments, r.id = m) →
          (∀ r ∈ e.dataBase.segments, r.id ≤ m) →
          -2147483648 ≤ m → QMap.size e.embedDataCache + m + 1 ≤ 2147483647 →
          firstContinueID e = QMap.size e.embedDataCache + m + 1)
      ∧ ∃ (src : QString) (chunks : List QString) (vectors : List V),
          (((documentChunks env path).map capChunks = some chunks ∧ src = path)
            ∨ (textsSpliter env.kMinChunksSize env.kMaxChunksSize (env.convertFile path)
                = some chunks ∧ src = saveAsDocPath env path))
          ∧ embeddingTexts env.onHttpEmbedding chunks = some vectors
          ∧ vectors.length = chunks.length
          ∧ (keptPairs chunks vectors).map Prod.fst = chunks.filter (fun c => !c.isEmpty)
          ∧ (firstContinueID e + ((keptPairs chunks vectors).length : Int) ≤ 2147483647 →
              (∀ (k : Nat) (p : QString × V), (keptPairs chunks vectors)[k]? = some p →
                  QMap.find e2.embedDataCache (firstContinueID e + (k : Int)) = some (src, p.1)
                    ∧ QMap.find e2.embedVectorCache (firstContinueID e + (k : Int)) = some p.2)
                ∧ (∀ id : Int,
                  id < firstContinueID e
                    ∨ firstContinueID e + ((keptPairs chunks vectors).length : Int) ≤ id →
                  QMap.find e2.embedDataCache id = QMap.find e.embedDataCache id
                    ∧ QMap.find e2.embedVectorCache id = QMap.find e.embedVectorCache id)) := by
  have hlow : -2147483648 ≤ firstContinueID e := (toInt32_range _).1
  refine ⟨firstContinueID_empty e, fun m h1 h2 h3 h4 => firstContinueID_max e m h1 h2 h3 h4, ?_⟩
  rcases h with h | h
  · obtain ⟨cs, hcs, hst⟩ := embeddingDocument_true env e e2 path h
    obtain ⟨vectors, hv, hlen, he2⟩ := embedAndStore_true env e e2 path _ hst
    subst he2
    exact ⟨path, capChunks cs, vectors, Or.inl ⟨by simp [hcs], rfl⟩, hv, hlen,
      keptPairs_fst _ _ hlen,
      fun hfit => insertLoop_spec path (capChunks cs) vectors (firstContinueID e) e hlow hfit⟩
  · obtain ⟨cs, hcs, hst⟩ := embeddingDocumentSaveAs_true env e e2 path h
    obtain ⟨vectors, hv, hlen, he2⟩ := embedAndStore_true env e e2 _ _ hst
    subst he2
    exact ⟨saveAsDocPath env path, cs, vectors, Or.inr ⟨hcs, rfl⟩, hv, hlen,
      keptPairs_fst _ _ hlen,
      fun hfit =>
        insertLoop_spec (saveAsDocPath env path) cs vectors (firstContinueID e) e hlow hfit⟩

/-- Witness of `ingest_ids_contiguous`: ids 0 and 1 are persisted (largest id 1), id 2 is
cached; indexing the two chunks of `/c` starts at `1 + 1 + 1 = 3` and stores ids 3 and 4. -/
theorem ingest_ids_contiguous_witness :
    (embeddingDocument sampleEnv persistedAB (qs "/c") = some (true, persistedABC)
        ∨ embeddingDocumentSaveAs sampleEnv persistedAB (qs "/c") = some (true, persistedABC))
      ∧ (QMap.size persistedAB.embedDataCache = 1 ∧ firstContinueID persistedAB = 3
          ∧ QMap.keys persistedABC.embedDataCache = [2, 3, 4])
      ∧ (persistedAB.dataBase.segments = [] → QMap.size persistedAB.embedDataCache ≤ 2147483647 →
          firstContinueID persistedAB = QMap.size persistedAB.embedDataCache)
      ∧ (∀ m : Int, (∃ r ∈ persistedAB.dataBase.segments, r.id = m) →
          (∀ r ∈ persistedAB.dataBase.segments, r.id ≤ m) →
          -2147483648 ≤ m → QMap.size persistedAB.embedDataCache + m + 1 ≤ 2147483647 →
          firstContinueID persistedAB = QMap.size persistedAB.embedDataCache + m + 1)
      ∧ ∃ (src : QString) (chunks : List QString) (vectors : List Nat),
          (((documentChunks sampleEnv (qs "/c")).map capChunks = some chunks ∧ src = qs "/c")
            ∨ (textsSpliter sampleEnv.kMinChunksSize sampleEnv.kMaxChunksSize
                  (sampleEnv.convertFile (qs "/c"))
                = some chunks ∧ src = saveAsDocPath sampleEnv (qs "/c")))
          ∧ embeddingTexts sampleEnv.onHttpEmbedding chunks = some vectors
          ∧ vectors.length = chunks.length
          ∧ (keptPairs chunks vectors).map Prod.fst = chunks.filter (fun c => !c.isEmpty)
          ∧ (firstContinueID persistedAB + ((keptPairs chunks vectors).length : Int)
                ≤ 2147483647 →
              (∀ (k : Nat) (p : QString × Nat), (keptPairs chunks vectors)[k]? = some p →
                  QMap.find persistedABC.embedDataCache (firstContinueID persistedAB + (k : Int))
                      = some (src, p.1)
                    ∧ QMap.find persistedABC.embedVectorCache
                        (firstContinueID persistedAB + (k : Int)) = some p.2)
                ∧ (∀ id : Int,
                  id < firstContinueID persistedAB
                    ∨ firstContinueID persistedAB + ((keptPairs chunks vectors).length : Int) ≤ id →
                  QMap.find persistedABC.embedDataCache id
                      = QMap.find persistedAB.embedDataCache id
                    ∧ QMap.find persistedABC.embedVectorCache id
                      = QMap.find persistedAB.embedVectorCache id)) :=
  ⟨Or.inl (by decide), by decide,
    ingest_ids_contiguous sampleEnv persistedAB persistedABC (qs "/c") (Or.inl (by decide))⟩

/-- C9 fails as stated. In a fresh key (empty cache, no row in the database) the first
chunk of the first document gets id 0, which is `|memcache|`; it is not
`|memcache| + m + 1` for any id `m >= 0`. And when the largest persisted id is 2147483647,
`getDBLastID` overflows its `int`: the chunk of `/b` gets id -2147483648, not
`0 + 2147483647 + 1`. -/
theorem first_id_of_fresh_key_counterexample :
    (emptyEmbedding.dataBase.segments = []
      ∧ QMap.size emptyEmbedding.embedDataCache = 0
      ∧ embeddingDocument sampleEnv emptyEmbedding (qs "/a") = some (true, stateA)
      ∧ QMap.keys stateA.embedDataCache = [0, 1]
      ∧ ∀ m : Nat, (0 : Int) ≠ QMap.size emptyEmbedding.embedDataCache + (m : Int) + 1)
      ∧ (lastIdEmbedding.dataBase.segments.map (fun r => r.id) = [2147483647]
        ∧ QMap.size lastIdEmbedding.embedDataCache = 0
        ∧ embeddingDocument sampleEnv lastIdEmbedding (qs "/b") = some (true, wrappedIdEmbedding)
        ∧ QMap.keys wrappedIdEmbedding.embedDataCache = [-2147483648]
        ∧ (-2147483648 : Int) ≠ QMap.size lastIdEmbedding.embedDataCache + 2147483647 + 1) := by
  refine ⟨⟨by decide, by decide, by decide, by decide, ?_⟩, by decide⟩
  intro m
  have : QMap.size emptyEmbedding.embedDataCache = 0 := by decide
  rw [this]
  omega

/-! ## Ingest: further runs and the duplicate check -/

theorem QMap.find_some_value {T : Type} (m : QMap T) (k : Int) (v dflt : T)
    (h : QMap.find m k = some v) : k ∈ QMap.keys m ∧ QMap.value m k dflt = v := by
  constructor
  · unfold QMap.find at h
    cases hf : m.find? (fun en => decide (en.1 = k)) with
    | none => rw [hf] at h; simp at h
    | some en =>
      have hmem := List.mem_of_find?_eq_some hf
      have hk := List.find?_some hf
      simp only [decide_eq_true_eq] at hk
      exact List.mem_map.mpr ⟨en, hmem, hk⟩
  · simp [QMap.value, h]

/-- Once the data cache holds an entry of source `src`, it holds one after the insert loop
has run for `src`, whatever ids the loop writes. -/
theorem insertLoop_keeps_source {V : Type} (src : QString) :
    ∀ (chunks : List QString) (vectors : List V) (id0 : Int) (e : Embedding V),
      (∃ (k : Int) (c : QString), QMap.find e.embedDataCache k = some (src, c)) →
      ∃ (k : Int) (c : QString),
        QMap.find (insertLoop src chunks vectors id0 e).embedDataCache k = some (src, c)
  | [], _, _, _, h => by simpa [insertLoop] using h
  | _ :: _, [], _, _, h => by simpa [insertLoop] using h
  | c :: cs, v :: vs, id0, e, h => by
    unfold insertLoop
    by_cases hc : c.isEmpty = true
    · simp only [hc, if_true]
      exact insertLoop_keeps_source src cs vs id0 e h
    · simp only [hc, Bool.false_eq_true, if_false]
      apply insertLoop_keeps_source src cs vs
      obtain ⟨k, c2, hk⟩ := h
      by_cases hkid : k = id0
      · exact ⟨id0, c, by simp [QMap.find_insert]⟩
      · exact ⟨k, c2, by simp only [QMap.find_insert, hkid, if_false]; exact hk⟩

/-- The insert loop on a chunk list that holds a non-empty chunk (and as many vectors)
leaves an entry of source `src` in the data cache. -/
theorem insertLoop_stores_source {V : Type} (src : QString) :
    ∀ (chunks : List QString) (vectors : List V) (id0 : Int) (e : Embedding V),
      vectors.length = chunks.length → (∃ c ∈ chunks, c.isEmpty = false) →
      ∃ (k : Int) (c : QString),
        QMap.find (insertLoop src chunks vectors id0 e).embedDataCache k = some (src, c)
  | [], _, _, _, _, h => by simp at h
  | _ :: _, [], _, _, hlen, _ => by simp at hlen
  | c :: cs, v :: vs, id0, e, hlen, h => by
    unfold insertLoop
    by_cases hc : c.isEmpty = true
    · simp only [hc, if_true]
      apply insertLoop_stores_source src cs vs id0 e (by simpa using hlen)
      obtain ⟨c2, hmem, hne⟩ := h
      rcases List.mem_cons.mp hmem with h2 | h2
      · rw [h2, hc] at hne; simp at hne
      · exact ⟨c2, h2, hne⟩
    · simp only [hc, Bool.false_eq_true, if_false]
      apply insertLoop_keeps_source src cs vs
      exact ⟨id0, c, by simp [QMap.find_insert]⟩

/-- When `embeddingDocument` succeeds on a chunk list that holds a non-empty chunk, the
path is a cached source afterwards and an immediately following call returns false and
leaves the object as it is. -/
theorem second_ingest_rejected {V : Type} (env : Env V) (e e2 : Embedding V) (path : QString)
    (h : embeddingDocument env e path = some (true, e2))
    (hne : ∀ cs, documentChunks env path = some cs → ∃ c ∈ capChunks cs, c.isEmpty = false) :
    embeddingDocument env e2 path = some (false, e2) := by
  obtain ⟨cs, hcs, hst⟩ := embeddingDocument_true env e e2 path h
  obtain ⟨vectors, _, hlen, he2⟩ := embedAndStore_true env e e2 path _ hst
  obtain ⟨k, c, hfind⟩ :=
    insertLoop_stores_source path (capChunks cs) vectors (firstContinueID e) e hlen (hne cs hcs)
  rw [← he2] at hfind
  obtain ⟨hkey, hval⟩ :=
    QMap.find_some_value e2.embedDataCache _ (path, c) ([], []) hfind
  have hdup : cacheHasSource e2 path = true := by
    unfold cacheHasSource
    rw [List.any_eq_true]
    exact ⟨_, hkey, by simp [hval]⟩
  unfold embeddingDocument
  split_ifs
  all_goals rfl

/-- A run of `embeddingDocumentSaveAs` in which `saveAsDocPath` returns the empty string:
the chunk of `/b` is cached with an empty source. -/
theorem saveAs_without_docs_dir_run :
    saveAsDocPath noDocsDirEnv (qs "/b") = []
      ∧ embeddingDocumentSaveAs noDocsDirEnv emptyEmbedding (qs "/b")
          = some (true, stateNoSource)
      ∧ QMap.value stateNoSource.embedDataCache 0 (qs "?", qs "?") = ([], qs "ccc") := by
  decide

/-! ## Query merge: lemmas -/

theorem drop_of_getElem?_some {α : Type} (l : List α) (i : Nat) (x : α) (h : l[i]? = some x) :
    l.drop i = x :: l.drop (i + 1) := by
  obtain ⟨hi, hx⟩ := List.getElem?_eq_some_iff.mp h
  rw [List.drop_eq_getElem_cons hi, hx]

theorem drop_of_getElem?_none {α : Type} (l : List α) (i : Nat) (h : l[i]? = none) :
    l.drop i = [] :=
  List.drop_eq_nil_of_le (List.getElem?_eq_none_iff.mp h)

theorem QMap.find_of_not_contains {T : Type} (m : QMap T) (k : Int)
    (h : QMap.contains m k = false) : QMap.find m k = none := by
  unfold QMap.contains at h
  unfold QMap.find
  have : m.find? (fun en => decide (en.1 = k)) = none := by
    rw [List.find?_eq_none]
    intro x hx
    have := (List.any_eq_false.mp h) x hx
    simpa using this
  rw [this]

theorem QMap.value_index {T : Type} (m : QMap T) (k k2 : Int) (dflt : T) :
    (QMap.index m k dflt).1 = QMap.value m k dflt
      ∧ QMap.value (QMap.index m k dflt).2 k2 dflt = QMap.value m k2 dflt := by
  unfold QMap.index
  by_cases hc : QMap.contains m k = true
  · simp [hc]
  · simp only [Bool.not_eq_true] at hc
    have hf := QMap.find_of_not_contains m k hc
    simp only [hc, Bool.false_eq_true, if_false]
    constructor
    · simp [QMap.value, hf]
    · unfold QMap.value
      rw [QMap.find_insert]
      by_cases hk : k2 = k
      · subst hk; simp [hf]
      · simp [hk]

theorem emitCache_spec {D : Type} (db : EmbedDB) (cache0 : QMap (QString × QString))
    (st : MergeState D) (c : D × Int)
    (hinv : ∀ id, QMap.value st.embedDataCache id ([], []) = QMap.value cache0 id ([], [])) :
    (emitCache st c).i = st.i + 1 ∧ (emitCache st c).j = st.j
      ∧ (emitCache st c).sort = st.sort + 1
      ∧ (emitCache st c).resultArray = st.resultArray ++ [resolveHit db cache0 (true, c)]
      ∧ ∀ id, QMap.value (emitCache st c).embedDataCache id ([], [])
          = QMap.value cache0 id ([], []) := by
  unfold emitCache getDataCacheFromID
  obtain ⟨h1, _⟩ := QMap.value_index st.embedDataCache c.2 c.2 ([], [])
  refine ⟨rfl, rfl, rfl, ?_, ?_⟩
  · simp only [resolveHit, h1, hinv]
  · intro id
    have := (QMap.value_index st.embedDataCache c.2 id ([], [])).2
    simp only [this, hinv]

theorem emitDisk_spec {D : Type} (db : EmbedDB) (cache0 : QMap (QString × QString))
    (st : MergeState D) (d : D × Int) (hv : validRow db d.2 = true) :
    (emitDisk db st d).i = st.i ∧ (emitDisk db st d).j = st.j + 1
      ∧ (emitDisk db st d).sort = st.sort + 1
      ∧ (emitDisk db st d).resultArray = st.resultArray ++ [resolveHit db cache0 (false, d)]
      ∧ (emitDisk db st d).embedDataCache = st.embedDataCache := by
  unfold validRow at hv
  unfold emitDisk
  cases h1 : selectMetaById db d.2 with
  | nil => simp [h1] at hv
  | cons res rest =>
    simp only [h1, Bool.and_eq_true, Option.isSome_iff_exists] at hv
    obtain ⟨⟨source, h2⟩, ⟨content, h3⟩⟩ := hv
    simp [h1, h2, h3, resolveHit]

theorem take_slots_cons {α : Type} (topK sort : Int) (h : ¬ sort > topK) (x : α) (xs : List α) :
    (x :: xs).take (topK + 1 - sort).toNat = x :: xs.take (topK + 1 - (sort + 1)).toNat := by
  have : (topK + 1 - sort).toNat = (topK + 1 - (sort + 1)).toNat + 1 := by omega
  rw [this, List.take_succ_cons]

theorem take_slots_zero {α : Type} (topK sort : Int) (h : sort > topK) (xs : List α) :
    xs.take (topK + 1 - sort).toNat = [] := by
  have : (topK + 1 - sort).toNat = 0 := by omega
  rw [this, List.take_zero]

theorem diskLoop_spec {D : Type} (db : EmbedDB) (cache0 : QMap (QString × QString))
    (topK : Int) (disk : List (D × Int)) (hvalid : ∀ d ∈ disk, validRow db d.2 = true) :
    ∀ (fuel : Nat) (st : MergeState D), disk.length - st.j < fuel →
      ∃ st2, diskLoop db topK disk fuel st = some st2
        ∧ st2.resultArray = st.resultArray
            ++ (((disk.drop st.j).map fun d => (false, d)).take (topK + 1 - st.sort).toNat).map
                (resolveHit db cache0)
        ∧ st2.embedDataCache = st.embedDataCache := by
  intro fuel
  induction fuel with
  | zero => intro st h; exact absurd h (Nat.not_lt_zero _)
  | succ fuel ih =>
    intro st h
    unfold diskLoop
    cases hd : disk[st.j]? with
    | none =>
      simp only []
      exact ⟨st, rfl, by simp [drop_of_getElem?_none disk st.j hd], rfl⟩
    | some d =>
      simp only []
      have hdrop := drop_of_getElem?_some disk st.j d hd
      by_cases hs : st.sort > topK
      · simp only [hs, if_true]
        exact ⟨st, rfl, by simp [take_slots_zero topK st.sort hs], rfl⟩
      · simp only [hs, if_false]
        have hmem : d ∈ disk := List.getElem?_mem hd
        obtain ⟨e1, e2, e3, e4, e5⟩ := emitDisk_spec db cache0 st d (hvalid d hmem)
        have hj : st.j < disk.length := (List.getElem?_eq_some_iff.mp hd).1
        obtain ⟨st2, h1, h2, h3⟩ := ih (emitDisk db st d) (by rw [e2]; omega)
        refine ⟨st2, h1, ?_, by rw [h3, e5]⟩
        rw [h2, e4, e2, e3, hdrop, List.map_cons, take_slots_cons topK st.sort hs]
        simp

theorem cacheLoop_spec {D : Type} (db : EmbedDB) (cache0 : QMap (QString × QString))
    (topK : Int) (cache : List (D × Int)) :
    ∀ (fuel : Nat) (st : MergeState D), cache.length - st.i < fuel →
      (∀ id, QMap.value st.embedDataCache id ([], []) = QMap.value cache0 id ([], [])) →
      ∃ st2, cacheLoop topK cache fuel st = some st2
        ∧ st2.resultArray = st.resultArray
            ++ (((cache.drop st.i).map fun c => (true, c)).take (topK + 1 - st.sort).toNat).map
                (resolveHit db cache0)
        ∧ st2.j = st.j
        ∧ st2.sort = st.sort
            + ((((cache.drop st.i).map fun c => (true, c)).take
                (topK + 1 - st.sort).toNat).length : Int)
        ∧ ∀ id, QMap.value st2.embedDataCache id ([], []) = QMap.value cache0 id ([], []) := by
  intro fuel
  induction fuel with
  | zero => intro st h; exact absurd h (Nat.not_lt_zero _)
  | succ fuel ih =>
    intro st h hinv
    unfold cacheLoop
    cases hc : cache[st.i]? with
    | none =>
      simp only []
      exact ⟨st, rfl, by simp [drop_of_getElem?_none cache st.i hc], rfl,
        by simp [drop_of_getElem?_none cache st.i hc], hinv⟩
    | some c =>
      simp only []
      have hdrop := drop_of_getElem?_some cache st.i c hc
      by_cases hs : st.sort > topK
      · simp only [hs, if_true]
        exact ⟨st, rfl, by simp [take_slots_zero topK st.sort hs], rfl,
          by simp [take_slots_zero topK st.sort hs], hinv⟩
      · simp only [hs, if_false]
        obtain ⟨e1, e2, e3, e4, e5⟩ := emitCache_spec db cache0 st c hinv
        have hi : st.i < cache.length := (List.getElem?_eq_some_iff.mp hc).1
        obtain ⟨st2, h1, h2, h3, h4, h5⟩ := ih (emitCache st c) (by rw [e1]; omega) e5
        refine ⟨st2, h1, ?_, by rw [h3, e2], ?_, h5⟩
        · rw [h2, e4, e1, e3, hdrop, List.map_cons, take_slots_cons topK st.sort hs]
          simp
        · rw [h4, e1, e3, hdrop, List.map_cons, take_slots_cons topK st.sort hs]
          simp only [List.length_cons]
          push_cast
          omega

theorem mergeHits_nil_right {D : Type} [LinearOrder D] (cs : List (D × Int)) :
    mergeHits cs [] = cs.map fun c => (true, c) := by
  cases cs with
  | nil => simp [mergeHits]
  | cons c cs => simp [mergeHits]

theorem mergeHits_nil_left {D : Type} [LinearOrder D] (ds : List (D × Int)) :
    mergeHits [] ds = ds.map fun d => (false, d) := by
  simp [mergeHits]

theorem mergeLoop_spec {D : Type} [LinearOrder D] (db : EmbedDB)
    (cache0 : QMap (QString × QString)) (topK : Int) (cache disk : List (D × Int))
    (hvalid : ∀ d ∈ disk, validRow db d.2 = true) :
    ∀ (fuel : Nat) (st : MergeState D),
      (cache.length - st.i) + (disk.length - st.j) < fuel →
      (∀ id, QMap.value st.embedDataCache id ([], []) = QMap.value cache0 id ([], [])) →
      ∃ st1, mergeLoop db topK cache disk fuel st = some st1
        ∧ (∀ id, QMap.value st1.embedDataCache id ([], []) = QMap.value cache0 id ([], []))
        ∧ st.resultArray
            ++ ((mergeHits (cache.drop st.i) (disk.drop st.j)).take
                (topK + 1 - st.sort).toNat).map (resolveHit db cache0)
          = st1.resultArray
            ++ ((((cache.drop st1.i).map fun c => (true, c))
                  ++ ((disk.drop st1.j).map fun d => (false, d))).take
                (topK + 1 - st1.sort).toNat).map (resolveHit db cache0) := by
  intro fuel
  induction fuel with
  | zero => intro st h; exact absurd h (Nat.not_lt_zero _)
  | succ fuel ih =>
    intro st h hinv
    unfold mergeLoop
    cases hc : cache[st.i]? with
    | none =>
      simp only []
      refine ⟨st, rfl, hinv, ?_⟩
      rw [drop_of_getElem?_none cache st.i hc, mergeHits_nil_left]
      simp
    | some c =>
      cases hd : disk[st.j]? with
      | none =>
        simp only []
        refine ⟨st, rfl, hinv, ?_⟩
        rw [drop_of_getElem?_none disk st.j hd, mergeHits_nil_right]
        simp
      | some d =>
        simp only []
        have hcdrop := drop_of_getElem?_some cache st.i c hc
        have hddrop := drop_of_getElem?_some disk st.j d hd
        have hi : st.i < cache.length := (List.getElem?_eq_some_iff.mp hc).1
        have hj : st.j < disk.length := (List.getElem?_eq_some_iff.mp hd).1
        by_cases hs : st.sort > topK
        · simp only [hs, if_true]
          refine ⟨st, rfl, hinv, ?_⟩
          simp [take_slots_zero topK st.sort hs]
        · simp only [hs, if_false]
          by_cases hlt : c.1 < d.1
          · simp only [hlt, if_true]
            obtain ⟨e1, e2, e3, e4, e5⟩ := emitCache_spec db cache0 st c hinv
            obtain ⟨st1, h1, h2, h3⟩ := ih (emitCache st c) (by rw [e1, e2]; omega) e5
            refine ⟨st1, h1, h2, ?_⟩
            rw [← h3, e1, e2, e3, e4, hcdrop, hddrop]
            have hm : mergeHits (c :: cache.drop (st.i + 1)) (d :: disk.drop (st.j + 1))
                = (true, c) :: mergeHits (cache.drop (st.i + 1)) (d :: disk.drop (st.j + 1)) := by
              rw [mergeHits]; simp [hlt]
            rw [hm, take_slots_cons topK st.sort hs]
            simp
          · simp only [hlt, if_false]
            obtain ⟨e1, e2, e3, e4, e5⟩ :=
              emitDisk_spec db cache0 st d (hvalid d (List.getElem?_mem hd))
            obtain ⟨st1, h1, h2, h3⟩ := ih (emitDisk db st d) (by rw [e1, e2]; omega)
              (by rw [e5]; exact hinv)
            refine ⟨st1, h1, h2, ?_⟩
            rw [← h3, e1, e2, e3, e4, hcdrop, hddrop]
            have hm : mergeHits (c :: cache.drop (st.i + 1)) (d :: disk.drop (st.j + 1))
                = (false, d) :: mergeHits (c :: cache.drop (st.i + 1)) (disk.drop (st.j + 1)) := by
              rw [mergeHits]; simp [hlt]
            rw [hm, take_slots_cons topK st.sort hs]
            simp

theorem loadTextsFromSearch_eq_merge {V D : Type} [LinearOrder D] (env : Env V) (fuel : Nat)
    (e : Embedding V) (topK : Int) (cache disk : List (D × Int))
    (hkey : e.appID ≠ env.kSystemAssistantKey)
    (hvalid : ∀ d ∈ disk, validRow e.dataBase d.2 = true)
    (hfuel : cache.length + disk.length < fuel) :
    ∃ e2, loadTextsFromSearch env fuel e topK cache disk
        = some (SearchOutput.doc (((mergeHits cache disk).take topK.toNat).map
            (resolveHit e.dataBase e.embedDataCache)), e2)
      ∧ (∀ id, QMap.value e2.embedDataCache id ([], []) = QMap.value e.embedDataCache id ([], []))
      ∧ e2.embedVectorCache = e.embedVectorCache ∧ e2.dataBase = e.dataBase
      ∧ e2.appID = e.appID := by
  unfold loadTextsFromSearch
  simp only [hkey, if_false]
  obtain ⟨st1, h1, hinv1, heq1⟩ :=
    mergeLoop_spec e.dataBase e.embedDataCache topK cache disk hvalid fuel
      { i := 0, j := 0, sort := 1, embedDataCache := e.embedDataCache, resultArray := [] }
      (by simp only []; omega) (fun _ => rfl)
  obtain ⟨st2, h2, hres2, hj2, hsort2, hinv2⟩ :=
    cacheLoop_spec e.dataBase e.embedDataCache topK cache fuel st1 (by omega) hinv1
  obtain ⟨st3, h3, hres3, hc3⟩ :=
    diskLoop_spec e.dataBase e.embedDataCache topK disk hvalid fuel st2 (by omega)
  rw [h1]
  simp only [h2, h3]
  refine ⟨{ e with embedDataCache := st3.embedDataCache }, ?_, ?_, rfl, rfl, rfl⟩
  · simp only [List.drop_zero, List.nil_append] at heq1
    have hk : (topK + 1 - 1).toNat = topK.toNat := by congr 1; omega
    rw [hk] at heq1
    have hcount :
        (topK + 1 - (st1.sort
            + (((List.map (fun c : D × Int => (true, c)) (List.drop st1.i cache)).take
                (topK + 1 - st1.sort).toNat).length : Int))).toNat
          = (topK + 1 - st1.sort).toNat
            - (List.map (fun c : D × Int => (true, c)) (List.drop st1.i cache)).length := by
      rw [List.length_take]
      rcases Nat.le_total (topK + 1 - st1.sort).toNat
        (List.map (fun c : D × Int => (true, c)) (List.drop st1.i cache)).length with hle | hle
      · rw [Nat.min_eq_left hle]; omega
      · rw [Nat.min_eq_right hle]; omega
    rw [heq1, hres3, hres2, hj2, hsort2, hcount, List.take_append_eq_append_take,
      List.map_append, List.append_assoc]
  · intro id
    simp only [hc3]
    exact hinv2 id

theorem resolveHit_distance {D : Type} (db : EmbedDB) (cache0 : QMap (QString × QString))
    (t : Bool × (D × Int)) : (resolveHit db cache0 t).distance = t.2.1 := by
  obtain ⟨b, hit⟩ := t
  cases b with
  | true => rfl
  | false =>
    simp only [resolveHit]
    split <;> rfl

theorem mergeHits_perm {D : Type} [LinearOrder D] :
    ∀ (cs ds : List (D × Int)), ((mergeHits cs ds).map fun t => t.2).Perm (cs ++ ds) := by
  intro cs
  induction cs with
  | nil => intro ds; simp [mergeHits_nil_left]
  | cons c cs ih =>
    intro ds
    induction ds with
    | nil => simp [mergeHits_nil_right]
    | cons d ds ih2 =>
      rw [mergeHits]
      by_cases hlt : c.1 < d.1
      · simp only [hlt, if_true, List.map_cons, List.cons_append]
        exact List.Perm.cons c (ih (d :: ds))
      · simp only [hlt, if_false, List.map_cons]
        refine List.Perm.trans (List.Perm.cons d ih2) ?_
        exact List.perm_middle.symm

theorem mergeHits_mem {D : Type} [LinearOrder D] (cs ds : List (D × Int))
    (t : Bool × (D × Int)) (h : t ∈ mergeHits cs ds) : t.2 ∈ cs ∨ t.2 ∈ ds := by
  have : t.2 ∈ (mergeHits cs ds).map fun t => t.2 := List.mem_map.mpr ⟨t, h, rfl⟩
  exact List.mem_append.mp ((mergeHits_perm cs ds).mem_iff.mp this)

theorem mergeHits_sorted {D : Type} [LinearOrder D] :
    ∀ (cs ds : List (D × Int)), cs.Pairwise (fun a b => a.1 ≤ b.1) →
      ds.Pairwise (fun a b => a.1 ≤ b.1) →
      (mergeHits cs ds).Pairwise (fun a b => a.2.1 ≤ b.2.1) := by
  intro cs
  induction cs with
  | nil =>
    intro ds _ hd
    rw [mergeHits_nil_left]
    exact List.Pairwise.map _ (fun _ _ h => h) hd
  | cons c cs ih =>
    intro ds
    induction ds with
    | nil =>
      intro hc _
      rw [mergeHits_nil_right]
      exact List.Pairwise.map _ (fun _ _ h => h) hc
    | cons d ds ih2 =>
      intro hc hd
      rw [mergeHits]
      obtain ⟨hc1, hc2⟩ := List.pairwise_cons.mp hc
      obtain ⟨hd1, hd2⟩ := List.pairwise_cons.mp hd
      by_cases hlt : c.1 < d.1
      · simp only [hlt, if_true]
        refine List.pairwise_cons.mpr ⟨?_, ih (d :: ds) hc2 hd⟩
        intro t ht
        rcases mergeHits_mem cs (d :: ds) t ht with h | h
        · exact hc1 t.2 h
        · rcases List.mem_cons.mp h with h | h
          · rw [h]; exact le_of_lt hlt
          · exact le_trans (le_of_lt hlt) (hd1 t.2 h)
      · simp only [hlt, if_false]
        have hle : d.1 ≤ c.1 := not_lt.mp hlt
        refine List.pairwise_cons.mpr ⟨?_, ih2 hc hd2⟩
        intro t ht
        rcases mergeHits_mem (c :: cs) ds t ht with h | h
        · rcases List.mem_cons.mp h with h | h
          · rw [h]; exact hle
          · exact le_trans hle (hc1 t.2 h)
        · exact hd1 t.2 h

theorem mergeHits_length {D : Type} [LinearOrder D] (cs ds : List (D × Int)) :
    (mergeHits cs ds).length = cs.length + ds.length := by
  have := (mergeHits_perm cs ds).length_eq
  simpa using this

theorem mergeHits_tie_position {D : Type} [LinearOrder D] :
    ∀ (cs ds : List (D × Int)) (i j : Nat) (c d : D × Int),
      cs.Pairwise (fun a b => a.1 < b.1) → ds.Pairwise (fun a b => a.1 < b.1) →
      cs[i]? = some c → ds[j]? = some d → c.1 = d.1 →
      (mergeHits cs ds)[i + j]? = some (false, d)
        ∧ (mergeHits cs ds)[i + j + 1]? = some (true, c) := by
  intro cs
  induction cs with
  | nil => intro ds i j c d _ _ hci; simp at hci
  | cons c0 cs ih =>
    intro ds
    induction ds with
    | nil => intro i j c d _ _ _ hdj; simp at hdj
    | cons d0 ds ih2 =>
      intro i j c d hc hd hci hdj htie
      obtain ⟨hc1, hc2⟩ := List.pairwise_cons.mp hc
      obtain ⟨hd1, hd2⟩ := List.pairwise_cons.mp hd
      rw [mergeHits]
      by_cases hlt : c0.1 < d0.1
      · simp only [hlt, if_true]
        cases i with
        | zero =>
          exfalso
          simp only [List.getElem?_cons_zero, Option.some.injEq] at hci
          subst hci
          cases j with
          | zero =>
            simp only [List.getElem?_cons_zero, Option.some.injEq] at hdj
            subst hdj
            exact absurd htie (ne_of_lt hlt)
          | succ j =>
            simp only [List.getElem?_cons_succ] at hdj
            have := hd1 d (List.getElem?_mem hdj)
            rw [← htie] at this
            exact absurd hlt (not_lt.mpr (le_of_lt this))
        | succ i =>
          simp only [List.getElem?_cons_succ] at hci
          obtain ⟨h1, h2⟩ := ih (d0 :: ds) i j c d hc2 hd hci hdj htie
          have e1 : i + 1 + j = (i + j) + 1 := by omega
          rw [e1, List.getElem?_cons_succ, List.getElem?_cons_succ]
          exact ⟨h1, h2⟩
      · simp only [hlt, if_false]
        cases j with
        | zero =>
          simp only [List.getElem?_cons_zero, Option.some.injEq] at hdj
          subst hdj
          cases i with
          | zero =>
            simp only [List.getElem?_cons_zero, Option.some.injEq] at hci
            subst hci
            refine ⟨by simp, ?_⟩
            simp only [Nat.add_zero, Nat.zero_add, List.getElem?_cons_succ]
            cases ds with
            | nil => rw [mergeHits_nil_right]; simp
            | cons d1 ds =>
              have hd01 : d0.1 < d1.1 := hd1 d1 (by simp)
              rw [mergeHits]
              simp [htie, hd01]
          | succ i =>
            exfalso
            simp only [List.getElem?_cons_succ] at hci
            have := hc1 c (List.getElem?_mem hci)
            rw [htie] at this
            exact hlt this
        | succ j =>
          simp only [List.getElem?_cons_succ] at hdj
          obtain ⟨h1, h2⟩ := ih2 i j c d hc hd2 hci hdj htie
          have e1 : i + (j + 1) = (i + j) + 1 := by omega
          rw [e1, List.getElem?_cons_succ, List.getElem?_cons_succ]
          exact ⟨h1, h2⟩

/-! ## Query merge: the top-K cut (C3) -/

/-- C3: for a key other than the system key, when every disk id resolves to a valid
metadata row and both hit lists are in ascending distance, `loadTextsFromSearch` returns
(with fuel for `|Cache| + |Disk| + 1` iterations per loop) a document of exactly
`min(topK, |Cache| + |Disk|)` records, none when `topK <= 0`, in ascending distance, whose
distances are the smallest of the two inputs together: with the distances left out they
make up all input distances, and none left out is smaller than one returned. -/
theorem loadTextsFromSearch_topK {V D : Type} [LinearOrder D] (env : Env V) (fuel : Nat)
    (e : Embedding V) (topK : Int) (cache disk : List (D × Int))
    (hkey : e.appID ≠ env.kSystemAssistantKey)
    (hcache : cache.Pairwise (fun a b => a.1 ≤ b.1))
    (hdisk : disk.Pairwise (fun a b => a.1 ≤ b.1))
    (hvalid : ∀ d ∈ disk, validRow e.dataBase d.2 = true)
    (hfuel : cache.length + disk.length < fuel) :
    ∃ records e2, loadTextsFromSearch env fuel e topK cache disk
        = some (SearchOutput.doc records, e2)
      ∧ records.length = min topK.toNat (cache.length + disk.length)
      ∧ (topK ≤ 0 → records = [])
      ∧ (records.map fun r => r.distance).Pairwise (fun x y => x ≤ y)
      ∧ ∃ rest : List D,
          ((records.map fun r => r.distance) ++ rest).Perm ((cache ++ disk).map Prod.fst)
            ∧ ∀ x ∈ records.map (fun r => r.distance), ∀ y ∈ rest, x ≤ y := by
  obtain ⟨e2, heq, _⟩ :=
    loadTextsFromSearch_eq_merge env fuel e topK cache disk hkey hvalid hfuel
  have hdist : ∀ l : List (Bool × (D × Int)),
      (l.map (resolveHit e.dataBase e.embedDataCache)).map (fun r => r.distance)
        = l.map fun t => t.2.1 := by
    intro l
    rw [List.map_map]
    exact List.map_congr_left (fun t _ => resolveHit_distance _ _ t)
  have hsorted := mergeHits_sorted cache disk hcache hdisk
  have hsplit := List.take_append_drop topK.toNat (mergeHits cache disk)
  refine ⟨_, e2, heq, ?_, ?_, ?_, ((mergeHits cache disk).drop topK.toNat).map (fun t => t.2.1),
    ?_, ?_⟩
  · simp [List.length_take, mergeHits_length]
  · intro hk
    have : topK.toNat = 0 := by omega
    simp [this]
  · rw [hdist]
    exact List.Pairwise.map _ (fun _ _ h => h)
      (List.Pairwise.sublist (List.take_sublist _ _) hsorted)
  · rw [hdist, ← List.map_append, hsplit]
    have := (mergeHits_perm cache disk).map Prod.fst
    simpa [List.map_map] using this
  · rw [hdist]
    intro x hx y hy
    obtain ⟨t, ht, rfl⟩ := List.mem_map.mp hx
    obtain ⟨u, hu, rfl⟩ := List.mem_map.mp hy
    rw [← hsplit] at hsorted
    exact (List.pairwise_append.mp hsorted).2.2 t ht u hu

/-- Witness of `loadTextsFromSearch_topK`: seven hits (four cached, three persisted) and
`topK = 5`. -/
theorem loadTextsFromSearch_topK_witness :
    ∃ records e2, loadTextsFromSearch sampleEnv 8 searchEmbedding 5 cacheHits diskHits
        = some (SearchOutput.doc records, e2)
      ∧ records.length = min (5 : Int).toNat (cacheHits.length + diskHits.length)
      ∧ ((5 : Int) ≤ 0 → records = [])
      ∧ (records.map fun r => r.distance).Pairwise (fun x y => x ≤ y)
      ∧ ∃ rest : List Nat,
          ((records.map fun r => r.distance) ++ rest).Perm ((cacheHits ++ diskHits).map Prod.fst)
            ∧ ∀ x ∈ records.map (fun r => r.distance), ∀ y ∈ rest, x ≤ y :=
  loadTextsFromSearch_topK sampleEnv 8 searchEmbedding 5 cacheHits diskHits
    (by decide) (by decide) (by decide) (by decide) (by decide)

/-! ## Query merge: ties (C10) -/

/-- C10, as the code has it: ties resolve in favor of Disk. For a key other than the
system key, hit lists in strictly ascending distance and disk ids that all resolve to valid
rows: when the cache hit at position `i` and the disk hit at position `j` have equal
distance, the record of the disk hit is the one at position `i + j` of the result and the
record of the cache hit the one right after it, at `i + j + 1`, as far as `topK` reaches. -/
theorem loadTextsFromSearch_tie_disk_first {V D : Type} [LinearOrder D] (env : Env V)
    (fuel : Nat) (e : Embedding V) (topK : Int) (cache disk : List (D × Int))
    (i j : Nat) (c d : D × Int)
    (hkey : e.appID ≠ env.kSystemAssistantKey)
    (hcache : cache.Pairwise (fun a b => a.1 < b.1))
    (hdisk : disk.Pairwise (fun a b => a.1 < b.1))
    (hvalid : ∀ x ∈ disk, validRow e.dataBase x.2 = true)
    (hfuel : cache.length + disk.length < fuel)
    (hci : cache[i]? = some c) (hdj : disk[j]? = some d) (htie : c.1 = d.1) :
    ∃ records e2, loadTextsFromSearch env fuel e topK cache disk
        = some (SearchOutput.doc records, e2)
      ∧ (((i + j : Nat) : Int) < topK →
          records[i + j]? = some (resolveHit e.dataBase e.embedDataCache (false, d)))
      ∧ (((i + j + 1 : Nat) : Int) < topK →
          records[i + j + 1]? = some (resolveHit e.dataBase e.embedDataCache (true, c))) := by
  obtain ⟨e2, heq, _⟩ :=
    loadTextsFromSearch_eq_merge env fuel e topK cache disk hkey hvalid hfuel
  obtain ⟨h1, h2⟩ := mergeHits_tie_position cache disk i j c d hcache hdisk hci hdj htie
  refine ⟨_, e2, heq, ?_, ?_⟩
  · intro hk
    have hlt : i + j < topK.toNat := by omega
    rw [List.getElem?_map, List.getElem?_take_of_lt hlt, h1]
    rfl
  · intro hk
    have hlt : i + j + 1 < topK.toNat := by omega
    rw [List.getElem?_map, List.getElem?_take_of_lt hlt, h2]
    rfl

/-- Witness of `loadTextsFromSearch_tie_disk_first`: the cache hit of id 11 and the disk hit
of id 2 both have distance 4. -/
theorem loadTextsFromSearch_tie_disk_first_witness :
    (cacheHits[1]? = some (4, 11) ∧ diskHits[1]? = some (4, 2))
      ∧ ∃ records e2, loadTextsFromSearch sampleEnv 8 searchEmbedding 5 cacheHits diskHits
          = some (SearchOutput.doc records, e2)
        ∧ ((((1 + 1 : Nat) : Int) < 5 →
            records[1 + 1]?
              = some (resolveHit searchEmbedding.dataBase searchEmbedding.embedDataCache
                  (false, ((4 : Nat), (2 : Int))))))
        ∧ ((((1 + 1 + 1 : Nat) : Int) < 5 →
            records[1 + 1 + 1]?
              = some (resolveHit searchEmbedding.dataBase searchEmbedding.embedDataCache
                  (true, ((4 : Nat), (11 : Int)))))) :=
  ⟨by decide,
    loadTextsFromSearch_tie_disk_first sampleEnv 8 searchEmbedding 5 cacheHits diskHits 1 1
      (4, 11) (4, 2) (by decide) (by decide) (by decide) (by decide) (by decide) (by decide)
      (by decide) rfl⟩

/-- C10 fails as stated: with one cache hit (id 11) and one disk hit (id 2), both at
distance 4, and `topK = 2`, the record of the disk hit (`/x`, `yyy`) is emitted first and
the record of the cache hit (`/a`, `bbb`) second. -/
theorem tie_cache_first_counterexample :
    loadTextsFromSearch sampleEnv 3 searchEmbedding 2 [((4 : Nat), (11 : Int))] [(4, 2)]
      = some (SearchOutput.doc
          [{ source := qs "/x", content := qs "yyy", distance := 4 },
            { source := qs "/a", content := qs "bbb", distance := 4 }],
          searchEmbedding) := by
  decide

/-! ## Chunker: reassembly lemmas -/

theorem spliterLoop_flatten (kMin kMax : Nat) (hk : 0 < kMax) :
    ∀ (frags chunks : List QString) (over : QString),
      ∃ chunks2 over2, spliterLoop kMin kMax frags chunks over = some (chunks2, over2)
        ∧ chunks2.flatten ++ over2 = chunks.flatten ++ over ++ frags.flatten := by
  intro frags
  induction frags with
  | nil =>
    intro chunks over
    exact ⟨chunks, over, rfl, by simp⟩
  | cons t rest ih =>
    intro chunks over
    unfold spliterLoop
    by_cases hbig : (over ++ t).length > kMax
    · obtain ⟨new, tail, he, _, _, hj⟩ :=
        textsSplitSize_spec kMax hk ((over ++ t).length + 1) (over ++ t) chunks [] 0 (by omega)
      obtain ⟨chunks2, over2, he2, hj2⟩ := ih (chunks ++ new) ([] ++ tail)
      refine ⟨chunks2, over2, ?_, ?_⟩
      · simp only [hbig, if_true, he, he2]
      · rw [hj2]
        simp only [List.drop_zero] at hj
        simp only [List.flatten_append, List.nil_append, List.append_assoc, List.flatten_cons]
        rw [← List.append_assoc new.flatten, hj]
        simp
    · simp only [hbig, if_false]
      by_cases hmid : (over ++ t).length > kMin ∧ (over ++ t).length < kMax
      · obtain ⟨chunks2, over2, he2, hj2⟩ := ih (chunks ++ [over ++ t]) []
        refine ⟨chunks2, over2, ?_, ?_⟩
        · simp only [hmid, and_self, if_true, he2]
        · rw [hj2]; simp
      · obtain ⟨chunks2, over2, he2, hj2⟩ := ih chunks (over ++ t)
        refine ⟨chunks2, over2, ?_, ?_⟩
        · simp only [hmid, if_false, he2]
        · rw [hj2]; simp

theorem appendToLast_flatten (over : QString) :
    ∀ chunks : List QString, chunks ≠ [] →
      (appendToLast chunks over).flatten = chunks.flatten ++ over
  | [], h => absurd rfl h
  | [c], _ => by simp [appendToLast]
  | c :: d :: cs, _ => by
    have ih := appendToLast_flatten over (d :: cs) (by simp)
    simp only [appendToLast, List.flatten_cons, List.append_assoc] at ih ⊢
    rw [ih]

theorem spliterFlush_flatten (kMin : Nat) (chunks : List QString) (over : QString) :
    (spliterFlush kMin chunks over).flatten = chunks.flatten ++ over := by
  unfold spliterFlush
  by_cases h1 : over.length > kMin
  · simp [h1]
  · simp only [h1, if_false]
    cases chunks with
    | nil => simp
    | cons a as =>
      simp only [List.isEmpty_cons, Bool.false_eq_true, if_false]
      exact appendToLast_flatten over (a :: as) (by simp)

theorem textsSpliter_flatten (kMin kMax : Nat) (hk : 0 < kMax) (texts : QString) :
    ∃ chunks, textsSpliter kMin kMax texts = some chunks
      ∧ chunks.flatten = (splitSkipEmpty (normalizeText texts)).flatten := by
  obtain ⟨chunks, over, he, hj⟩ :=
    spliterLoop_flatten kMin kMax hk (splitSkipEmpty (normalizeText texts)) [] []
  refine ⟨spliterFlush kMin chunks over, ?_, ?_⟩
  · simp only [textsSpliter, he]
  · rw [spliterFlush_flatten, hj]; simp

theorem splitAux_flatten :
    ∀ (t cur : QString), (splitAux cur t).flatten = cur ++ t.filter fun c => !isSplitChar c := by
  intro t
  induction t with
  | nil =>
    intro cur
    cases cur <;> simp [splitAux]
  | cons c cs ih =>
    intro cur
    unfold splitAux
    by_cases hc : isSplitChar c = true
    · simp only [hc, if_true]
      cases cur with
      | nil => simp [ih, hc]
      | cons a as => simp [ih, hc]
    · simp only [Bool.not_eq_true] at hc
      simp only [hc, Bool.false_eq_true, if_false]
      rw [ih]
      simp [hc]

theorem splitAux_fragments :
    ∀ (t cur : QString), (∀ c ∈ cur, isSplitChar c = false) →
      ∀ f ∈ splitAux cur t, f ≠ [] ∧ ∀ c ∈ f, isSplitChar c = false := by
  intro t
  induction t with
  | nil =>
    intro cur hcur f hf
    cases cur with
    | nil => simp [splitAux] at hf
    | cons a as =>
      simp only [splitAux, List.isEmpty_cons, Bool.false_eq_true, if_false,
        List.mem_singleton] at hf
      subst hf
      exact ⟨by simp, hcur⟩
  | cons c cs ih =>
    intro cur hcur f hf
    unfold splitAux at hf
    by_cases hc : isSplitChar c = true
    · simp only [hc, if_true] at hf
      cases cur with
      | nil =>
        simp only [List.isEmpty_nil, if_true] at hf
        exact ih [] (by simp) f hf
      | cons a as =>
        simp only [List.isEmpty_cons, Bool.false_eq_true, if_false, List.mem_cons] at hf
        rcases hf with rfl | hf
        · exact ⟨by simp, hcur⟩
        · exact ih [] (by simp) f hf
    · simp only [Bool.not_eq_true] at hc
      simp only [hc, Bool.false_eq_true, if_false] at hf
      refine ih (cur ++ [c]) ?_ f hf
      intro x hx
      rcases List.mem_append.mp hx with h | h
      · exact hcur x h
      · rw [List.mem_singleton.mp h]; exact hc

/-! ## Chunker: the concatenation of the chunks (C14, C15, C20) -/

/-- C14, as the code has it: for `MAX_CHUNK > 0` the concatenation of the chunks of
`textsSpliter`, in order, is the normalized input with its delimiter characters taken
out, with no trailing fragment left out; it is the normalized input itself when that
holds no delimiter character. -/
theorem textsSpliter_concat_without_delimiters (kMin kMax : Nat) (hk : 0 < kMax)
    (texts : QString) :
    ∃ chunks, textsSpliter kMin kMax texts = some chunks
      ∧ chunks.flatten = (normalizeText texts).filter (fun c => !isSplitChar c)
      ∧ ((∀ c ∈ normalizeText texts, isSplitChar c = false) →
          chunks.flatten = normalizeText texts) := by
  obtain ⟨chunks, he, hf⟩ := textsSpliter_flatten kMin kMax hk texts
  have hfil : chunks.flatten = (normalizeText texts).filter (fun c => !isSplitChar c) := by
    rw [hf, splitSkipEmpty, splitAux_flatten]; simp
  refine ⟨chunks, he, hfil, ?_⟩
  intro hno
  rw [hfil, List.filter_eq_self]
  intro c hc
  simp [hno c hc]

/-- Witness of `textsSpliter_concat_without_delimiters` at `MIN_CHUNK = 0`,
`MAX_CHUNK = 10`. -/
theorem textsSpliter_concat_without_delimiters_witness :
    0 < 10 ∧ ∃ chunks, textsSpliter 0 10 (qs "A, B. C") = some chunks
      ∧ chunks.flatten = (normalizeText (qs "A, B. C")).filter (fun c => !isSplitChar c)
      ∧ ((∀ c ∈ normalizeText (qs "A, B. C"), isSplitChar c = false) →
          chunks.flatten = normalizeText (qs "A, B. C")) :=
  ⟨by decide, textsSpliter_concat_without_delimiters 0 10 (by decide) (qs "A, B. C")⟩

/-- C14 fails as stated: with `MIN_CHUNK = 0`, `MAX_CHUNK = 10` the input `A, B. C` is its
own normalization, its chunks concatenate to `A B C`, and `A B C` is not a prefix of
`A, B. C`. -/
theorem textsSpliter_concat_prefix_counterexample :
    normalizeText (qs "A, B. C") = qs "A, B. C"
      ∧ (textsSpliter 0 10 (qs "A, B. C")).map List.flatten = some (qs "A B C")
      ∧ ¬ (qs "A B C" <+: qs "A, B. C") := by
  decide

/-- C15, as the code has it: with `MIN_CHUNK = 0` and `MAX_CHUNK = 10` the chunker
applied to `A, B. C` yields the chunk list `["A", " B", " C"]`: a fragment keeps the
space that follows the delimiter. -/
theorem textsSpliter_scenario_keeps_spaces :
    textsSpliter 0 10 (qs "A, B. C") = some [qs "A", qs " B", qs " C"] := by
  decide

/-- C15 fails as stated: the chunk list of `A, B. C` is not `["A", "B", "C"]`. -/
theorem textsSpliter_scenario_counterexample :
    textsSpliter 0 10 (qs "A, B. C") ≠ some [qs "A", qs "B", qs "C"] := by
  decide

/-- C20: for `MAX_CHUNK > 0` the chunker returns, and the concatenation of its chunks, in
order, is the concatenation, in order, of the fragments of the normalized text, which are
non-empty and free of delimiter characters; and `textsSplitSize`, started at position 0
with fuel above the length of its text, returns the slices of length `MAX_CHUNK` and an
overflow shorter than `MAX_CHUNK` that together reassemble the text. -/
theorem textsSpliter_reassembles (kMin kMax : Nat) (hk : 0 < kMax) (texts : QString) :
    (∃ chunks, textsSpliter kMin kMax texts = some chunks
        ∧ chunks.flatten = (splitSkipEmpty (normalizeText texts)).flatten)
      ∧ (∀ f ∈ splitSkipEmpty (normalizeText texts),
          f ≠ [] ∧ ∀ c ∈ f, isSplitChar c = false)
      ∧ (∀ (fuel : Nat) (text : QString) (splits : List QString) (over : QString),
          text.length < fuel →
          ∃ slices tail, textsSplitSize kMax fuel text splits over 0
              = some (splits ++ slices, over ++ tail)
            ∧ (∀ c ∈ slices, c.length = kMax) ∧ tail.length < kMax
            ∧ slices.flatten ++ tail = text) := by
  refine ⟨textsSpliter_flatten kMin kMax hk texts,
    splitAux_fragments (normalizeText texts) [] (by simp), ?_⟩
  intro fuel text splits over hfuel
  obtain ⟨new, tail, he, hn, ht, hj⟩ :=
    textsSplitSize_spec kMax hk fuel text splits over 0 (by omega)
  exact ⟨new, tail, he, hn, ht, by simpa using hj⟩

/-- Witness of `textsSpliter_reassembles` at `MIN_CHUNK = 2`, `MAX_CHUNK = 4`. -/
theorem textsSpliter_reassembles_witness :
    0 < 4
      ∧ (∃ chunks, textsSpliter 2 4 (qs "abcd.e") = some chunks
        ∧ chunks.flatten = (splitSkipEmpty (normalizeText (qs "abcd.e"))).flatten)
      ∧ (∀ f ∈ splitSkipEmpty (normalizeText (qs "abcd.e")),
          f ≠ [] ∧ ∀ c ∈ f, isSplitChar c = false)
      ∧ (∀ (fuel : Nat) (text : QString) (splits : List QString) (over : QString),
          text.length < fuel →
          ∃ slices tail, textsSplitSize 4 fuel text splits over 0
              = some (splits ++ slices, over ++ tail)
            ∧ (∀ c ∈ slices, c.length = 4) ∧ tail.length < 4
            ∧ slices.flatten ++ tail = text) :=
  ⟨by decide, textsSpliter_reassembles 2 4 (by decide) (qs "abcd.e")⟩

/-! ## Query merge: termination (C19) -/

/-- Every row that the database returns for an id has a valid source and a valid content
variant. -/
theorem selectMetaById_valid (db : EmbedDB) (id : Int) (res : MetaResult)
    (h : res ∈ selectMetaById db id) :
    ∃ source content, res.source = some source ∧ res.content = some content := by
  unfold selectMetaById at h
  obtain ⟨r, _, hr⟩ := List.mem_map.mp h
  subst hr
  exact ⟨_, _, rfl, rfl⟩

/-- A disk id resolves to a valid metadata row exactly when the table has a row of that
id. -/
theorem validRow_iff_row (db : EmbedDB) (id : Int) :
    validRow db id = true ↔ selectMetaById db id ≠ [] := by
  unfold validRow
  cases hsel : selectMetaById db id with
  | nil => simp
  | cons res rest =>
    obtain ⟨source, content, hs, hc⟩ := selectMetaById_valid db id res (by rw [hsel]; simp)
    simp [hs, hc]

theorem systemLoop_all_rows {D : Type} (db : EmbedDB) (cache0 : QMap (QString × QString)) :
    ∀ (disk : List (D × Int)) (resultArray : List (SearchRecord D)),
      (∀ d ∈ disk, selectMetaById db d.2 ≠ []) →
      systemLoop db disk resultArray
        = some (resultArray
            ++ (disk.filter fun d => validRow db d.2).map fun d => resolveHit db cache0 (false, d)) := by
  intro disk
  induction disk with
  | nil => intro resultArray _; simp [systemLoop]
  | cons d ds ih =>
    intro resultArray hrows
    have hd := hrows d (by simp)
    have hds : ∀ x ∈ ds, selectMetaById db x.2 ≠ [] := fun x hx =>
      hrows x (List.mem_cons_of_mem _ hx)
    unfold systemLoop
    cases hsel : selectMetaById db d.2 with
    | nil => exact absurd hsel hd
    | cons res rest =>
      simp only []
      cases hsrc : res.source with
      | none =>
        have hv : validRow db d.2 = false := by simp [validRow, hsel, hsrc]
        simp only [ih resultArray hds, hv, Bool.false_eq_true, not_false_eq_true,
          List.filter_cons_of_neg]
      | some source =>
        cases hcon : res.content with
        | none =>
          have hv : validRow db d.2 = false := by simp [validRow, hsel, hcon]
          simp only [ih resultArray hds, hv, Bool.false_eq_true, not_false_eq_true,
            List.filter_cons_of_neg]
        | some content =>
          have hv : validRow db d.2 = true := by simp [validRow, hsel, hsrc, hcon]
          simp only [ih _ hds, hv, List.filter_cons_of_pos, List.map_cons, resolveHit, hsel,
            hsrc, hcon, Option.getD_some, List.append_assoc, List.singleton_append]

theorem systemLoop_missing_row {D : Type} (db : EmbedDB) :
    ∀ (disk : List (D × Int)) (resultArray : List (SearchRecord D)),
      (∃ d ∈ disk, selectMetaById db d.2 = []) → systemLoop db disk resultArray = none := by
  intro disk
  induction disk with
  | nil => intro resultArray h; simp at h
  | cons d ds ih =>
    intro resultArray h
    unfold systemLoop
    cases hsel : selectMetaById db d.2 with
    | nil => rfl
    | cons res rest =>
      have hrest : ∃ x ∈ ds, selectMetaById db x.2 = [] := by
        obtain ⟨x, hx, hxe⟩ := h
        rcases List.mem_cons.mp hx with rfl | hx
        · rw [hsel] at hxe; simp at hxe
        · exact ⟨x, hx, hxe⟩
      simp only []
      split
      · exact ih _ hrest
      · exact ih _ hrest

/-- C11: under the system key `loadTextsFromSearch` returns, for any fuel, one output that
depends on the disk hits and the database alone: it is the same for every cache hit list
and every content of the two caches (which it leaves as they are). The output is the
document of the records resolved from the disk ids that have a valid row, in the order of
the disk hits, when every disk id has a row, and the null string when one has none. -/
theorem loadTextsFromSearch_system_key {V D : Type} [LinearOrder D] (env : Env V)
    (e : Embedding V) (topK : Int) (disk : List (D × Int))
    (hkey : e.appID = env.kSystemAssistantKey) :
    ∃ out : SearchOutput D,
      (∀ (fuel : Nat) (cache : List (D × Int)) (dataCache : QMap (QString × QString))
          (vectorCache : QMap V),
          loadTextsFromSearch env fuel
              { e with embedDataCache := dataCache, embedVectorCache := vectorCache }
              topK cache disk
            = some (out, { e with embedDataCache := dataCache, embedVectorCache := vectorCache }))
        ∧ ((∀ d ∈ disk, selectMetaById e.dataBase d.2 ≠ []) →
            out = SearchOutput.doc
              ((disk.filter fun d => validRow e.dataBase d.2).map fun d =>
                resolveHit e.dataBase [] (false, d)))
        ∧ ((∃ d ∈ disk, selectMetaById e.dataBase d.2 = []) → out = SearchOutput.null) := by
  cases hloop : systemLoop e.dataBase disk [] with
  | none =>
    refine ⟨SearchOutput.null, ?_, ?_, fun _ => rfl⟩
    · intro fuel cache dataCache vectorCache
      simp only [loadTextsFromSearch, hkey, if_true, hloop]
    · intro hrows
      rw [systemLoop_all_rows e.dataBase [] disk [] hrows] at hloop
      simp at hloop
  | some records =>
    refine ⟨SearchOutput.doc records, ?_, ?_, ?_⟩
    · intro fuel cache dataCache vectorCache
      simp only [loadTextsFromSearch, hkey, if_true, hloop]
    · intro hrows
      rw [systemLoop_all_rows e.dataBase [] disk [] hrows] at hloop
      simp only [List.nil_append, Option.some.injEq] at hloop
      rw [hloop]
    · intro hmiss
      rw [systemLoop_missing_row e.dataBase disk [] hmiss] at hloop
      simp at hloop

/-- Witness of `loadTextsFromSearch_system_key`: the sample search object under the system
key. -/
theorem loadTextsFromSearch_system_key_witness :
    systemEmbedding.appID = sampleEnv.kSystemAssistantKey
      ∧ ∃ out : SearchOutput Nat,
        (∀ (fuel : Nat) (cache : List (Nat × Int)) (dataCache : QMap (QString × QString))
            (vectorCache : QMap Nat),
            loadTextsFromSearch sampleEnv fuel
                { systemEmbedding with embedDataCache := dataCache, embedVectorCache := vectorCache }
                5 cache diskHits
              = some (out,
                  { systemEmbedding with
                    embedDataCache := dataCache, embedVectorCache := vectorCache }))
          ∧ ((∀ d ∈ diskHits, selectMetaById systemEmbedding.dataBase d.2 ≠ []) →
              out = SearchOutput.doc
                ((diskHits.filter fun d => validRow systemEmbedding.dataBase d.2).map fun d =>
                  resolveHit systemEmbedding.dataBase [] (false, d)))
          ∧ ((∃ d ∈ diskHits, selectMetaById systemEmbedding.dataBase d.2 = []) →
              out = SearchOutput.null) :=
  ⟨by decide, loadTextsFromSearch_system_key sampleEnv systemEmbedding 5 diskHits (by decide)⟩

/-! ## Ingest: the cap of 100 chunks (C16) -/

/-- C16 at a failing input: a document of 101 chunks `aaa`. `embeddingDocumentSaveAs` has
no cap: it returns true and caches 101 entries, the last under id 100, while
`embeddingDocument` caches the first 100 chunks (ids 0 to 99). -/
theorem saveAs_keeps_more_than_100_chunks :
    (textsSpliter manyChunksEnv.kMinChunksSize manyChunksEnv.kMaxChunksSize
          (manyChunksEnv.convertFile (qs "/many"))).map List.length = some 101
      ∧ (embeddingDocumentSaveAs manyChunksEnv emptyEmbedding (qs "/many")).map
            (fun r => (r.1, r.2.embedDataCache.length, r.2.embedVectorCache.length))
          = some (true, 101, 101)
      ∧ ((embeddingDocumentSaveAs manyChunksEnv emptyEmbedding (qs "/many")).bind
            fun r => QMap.find r.2.embedDataCache 100)
          = some (qs "/docs/many", qs "aaa")
      ∧ (embeddingDocument manyChunksEnv emptyEmbedding (qs "/many")).map
            (fun r => (r.1, r.2.embedDataCache.length, r.2.embedVectorCache.length))
          = some (true, 100, 100)
      ∧ ((embeddingDocument manyChunksEnv emptyEmbedding (qs "/many")).bind
            fun r => QMap.find r.2.embedDataCache 100)
          = none := by
  refine ⟨by decide, by decide, by decide, by decide, by decide⟩

/-! ## Delete: lemmas -/

theorem lookupName_storeName_same {α : Type} (name : QString) (value : α) :
    ∀ table : List (QString × α), lookupName name (storeName name value table) = some value
  | [] => by simp [storeName, lookupName]
  | en :: table => by
    have ih := lookupName_storeName_same name value table
    unfold storeName
    by_cases h : en.1 = name
    · simp [h, lookupName]
    · simp only [h, if_false]
      unfold lookupName at ih ⊢
      simp only [List.find?_cons, h, decide_False]
      exact ih

theorem lookupName_storeName_ne {α : Type} (name name2 : QString) (value : α)
    (hne : name2 ≠ name) :
    ∀ table : List (QString × α),
      lookupName name2 (storeName name value table) = lookupName name2 table
  | [] => by
    have h : ¬ name = name2 := fun hc => hne hc.symm
    simp [storeName, lookupName, h]
  | en :: table => by
    have ih := lookupName_storeName_ne name name2 value hne table
    unfold storeName
    by_cases h : en.1 = name
    · have h2 : ¬ en.1 = name2 := fun hc => hne (hc.symm.trans h)
      have h3 : ¬ name = name2 := fun hc => hne hc.symm
      simp [h, lookupName, h2, h3]
    · simp only [h, if_false]
      unfold lookupName at ih ⊢
      by_cases h2 : en.1 = name2
      · simp [List.find?_cons, h2]
      · simp only [List.find?_cons, h2, decide_False]
        exact ih

theorem indexName_ne_loaded_name (indexType : QString) (n : Nat) :
    indexType ++ qs ".faiss" ≠ indexType ++ qs "_" ++ numberStr n ++ qs ".faiss" := by
  intro h
  rw [List.append_assoc, List.append_assoc] at h
  have h2 := List.append_cancel_left h
  have e1 : qs ".faiss" = 46 :: qs "faiss" := by decide
  have e2 : qs "_" = [95] := by decide
  rw [e1, e2] at h2
  simp at h2

/-- The file that `loadIndexFromFile` reads for an index type is never the file that
`saveIndexToFile` writes for that type: a save leaves what is loaded, for every key, as it
was. -/
theorem saveIndexToFile_keeps_loaded_shard {F : Type} (env : IndexEnv F) (vi : VectorIndex F)
    (index : FaissIndex F) (indexKey indexType key2 : QString) :
    loadIndexFromFile (saveIndexToFile env vi index indexKey indexType).2 key2 indexType
      = loadIndexFromFile vi key2 indexType := by
  unfold saveIndexToFile
  cases hdir : lookupName indexKey vi.dirs with
  | none => rfl
  | some indexDir =>
    simp only []
    by_cases hw : env.writeIndexOk = true
    · simp only [hw, if_true]
      unfold loadIndexFromFile
      simp only []
      by_cases hk : key2 = indexKey
      · subst hk
        rw [lookupName_storeName_same, hdir]
        simp only []
        exact lookupName_storeName_ne _ _ _ (indexName_ne_loaded_name indexType _) _
      · rw [lookupName_storeName_ne _ _ _ hk]
    · simp only [hw, Bool.false_eq_true, if_false]
      rfl

/-- A delete leaves the shard that `vectorSearch` loads, and so every search result, as it
was. -/
theorem deleteIndex_keeps_search {F : Type} (env : IndexEnv F) (vi : VectorIndex F)
    (indexKey : QString) (deleteID : List Int) (topK : Int) (queryVector : List F)
    (key2 : QString) :
    vectorSearch env (deleteIndex env vi indexKey deleteID).2 topK queryVector key2
      = vectorSearch env vi topK queryVector key2 := by
  unfold vectorSearch deleteIndex deleteFlatIndex
  cases hload : loadIndexFromFile vi indexKey env.kFaissFlatIndex with
  | none => rfl
  | some index =>
    simp only []
    rw [saveIndexToFile_keeps_loaded_shard]

theorem filter_cons_drop {α : Type} (p : α → Bool) (a : α) (l : List α) (h : p a = false) :
    (a :: l).filter p = l.filter p := by
  simp [List.filter_cons, h]

theorem filter_cons_keep {α : Type} (p : α → Bool) (a : α) (l : List α) (h : p a = true) :
    (a :: l).filter p = a :: l.filter p := by
  simp [List.filter_cons, h]

theorem QMap.find_append_of_not_mem {T : Type} (P m : QMap T) (k : Int)
    (h : ∀ en ∈ P, en.1 ≠ k) : QMap.find (P ++ m) k = QMap.find m k := by
  unfold QMap.find
  have : (P ++ m).find? (fun en => decide (en.1 = k)) = m.find? (fun en => decide (en.1 = k)) := by
    induction P with
    | nil => rfl
    | cons p P ih =>
      have hp : ¬ p.1 = k := h p (by simp)
      simp only [List.cons_append, List.find?_cons, hp, decide_False]
      exact ih (fun en hen => h en (List.mem_cons_of_mem _ hen))
  rw [this]

theorem QMap.remove_append_head {T : Type} (P m : QMap T) (k : Int) (v : T)
    (hP : ∀ en ∈ P, en.1 ≠ k) (hm : ∀ en ∈ m, en.1 ≠ k) :
    QMap.remove k (P ++ (k, v) :: m) = P ++ m := by
  unfold QMap.remove
  have h1 : P.filter (fun en => decide (en.1 ≠ k)) = P :=
    List.filter_eq_self.mpr (fun en hen => by simpa using hP en hen)
  have h2 : m.filter (fun en => decide (en.1 ≠ k)) = m :=
    List.filter_eq_self.mpr (fun en hen => by simpa using hm en hen)
  rw [List.filter_append, filter_cons_drop (fun en : Int × T => decide (en.1 ≠ k)) (k, v) m
    (by simp), h1, h2]

theorem deleteCacheIndex_fold {V : Type} (files : List QString) :
    ∀ (m P : QMap (QString × QString)) (e2 : Embedding V),
      e2.embedDataCache = P ++ m → (∀ en ∈ P, en.1 ∉ QMap.keys m) → (QMap.keys m).Nodup →
      ((QMap.keys m).foldl
          (fun e3 id =>
            if !files.contains (QMap.value e3.embedDataCache id ([], [])).1 then e3
            else
              { e3 with
                embedDataCache := QMap.remove id e3.embedDataCache
                embedVectorCache := QMap.remove id e3.embedVectorCache })
          e2).embedDataCache = P ++ m.filter (fun en => !files.contains en.2.1)
        ∧ ((QMap.keys m).foldl
          (fun e3 id =>
            if !files.contains (QMap.value e3.embedDataCache id ([], [])).1 then e3
            else
              { e3 with
                embedDataCache := QMap.remove id e3.embedDataCache
                embedVectorCache := QMap.remove id e3.embedVectorCache })
          e2).embedVectorCache
          = e2.embedVectorCache.filter
              (fun en => !((m.filter fun x => files.contains x.2.1).map Prod.fst).contains en.1) := by
  intro m
  induction m with
  | nil =>
    intro P e2 he _ _
    simp [QMap.keys, he]
  | cons kv m ih =>
    intro P e2 he hP hnd
    obtain ⟨k, v⟩ := kv
    have hkeys : QMap.keys ((k, v) :: m) = k :: QMap.keys m := rfl
    rw [hkeys] at hP hnd ⊢
    obtain ⟨hk, hnd2⟩ := List.nodup_cons.mp hnd
    have hPk : ∀ en ∈ P, en.1 ≠ k := fun en hen hc => hP en hen (by simp [hc])
    have hmk : ∀ en ∈ m, en.1 ≠ k := fun en hen hc =>
      hk (by rw [← hc]; exact List.mem_map.mpr ⟨en, hen, rfl⟩)
    have hval : QMap.value e2.embedDataCache k ([], []) = v := by
      unfold QMap.value
      rw [he, QMap.find_append_of_not_mem P _ k hPk]
      simp [QMap.find]
    simp only [List.foldl_cons, hval]
    by_cases hc : files.contains v.1 = true
    · simp only [hc, Bool.not_true, Bool.false_eq_true, if_false]
      have hP2 : ∀ en ∈ P, en.1 ∉ QMap.keys m := fun en hen hc2 =>
        hP en hen (List.mem_cons_of_mem _ hc2)
      obtain ⟨h1, h2⟩ := ih P
        { e2 with
          embedDataCache := QMap.remove k e2.embedDataCache
          embedVectorCache := QMap.remove k e2.embedVectorCache }
        (by simp only [he]; exact QMap.remove_append_head P m k v hPk hmk) hP2 hnd2
      have hkeep : (!files.contains v.1) = false := by rw [hc]; rfl
      refine ⟨?_, ?_⟩
      · rw [h1, filter_cons_drop (fun en : Int × QString × QString => !files.contains en.2.1)
          (k, v) m hkeep]
      · rw [h2, filter_cons_keep (fun x : Int × QString × QString => files.contains x.2.1)
          (k, v) m hc, List.map_cons]
        simp only [QMap.remove, List.filter_filter]
        apply List.filter_congr
        intro en _
        by_cases hek : en.1 = k
        · simp [hek]
        · have hek2 : ¬ k = en.1 := fun h => hek h.symm
          simp [hek, List.contains_cons]
    · simp only [Bool.not_eq_true] at hc
      simp only [hc, Bool.not_false, if_true]
      have hP2 : ∀ en ∈ P ++ [(k, v)], en.1 ∉ QMap.keys m := by
        intro en hen
        rcases List.mem_append.mp hen with h | h
        · exact fun hc2 => hP en h (List.mem_cons_of_mem _ hc2)
        · rw [List.mem_singleton.mp h]; exact hk
      obtain ⟨h1, h2⟩ := ih (P ++ [(k, v)]) e2 (by rw [he]; simp) hP2 hnd2
      have hkeep : (!files.contains v.1) = true := by rw [hc]; rfl
      refine ⟨?_, ?_⟩
      · rw [h1, filter_cons_keep (fun en : Int × QString × QString => !files.contains en.2.1)
          (k, v) m hkeep]
        simp
      · rw [h2, filter_cons_drop (fun x : Int × QString × QString => files.contains x.2.1)
          (k, v) m hc]

/-- What `deleteCacheIndex(files)` does to the two caches of an object whose data cache has
one entry per id: the data cache keeps the entries whose source is not in `files`, and the
vector cache keeps the entries whose id is not the id of a removed data entry. -/
theorem deleteCacheIndex_spec {V : Type} (e : Embedding V) (files : List QString)
    (hnodup : (QMap.keys e.embedDataCache).Nodup) :
    (deleteCacheIndex e files).embedDataCache
        = e.embedDataCache.filter (fun en => !files.contains en.2.1)
      ∧ (deleteCacheIndex e files).embedVectorCache
        = e.embedVectorCache.filter
            (fun en =>
              !((e.embedDataCache.filter fun x => files.contains x.2.1).map Prod.fst).contains
                en.1) := by
  unfold deleteCacheIndex
  cases files with
  | nil => simp
  | cons f fs =>
    simp only [List.isEmpty_cons, Bool.false_eq_true, if_false]
    have := deleteCacheIndex_fold (f :: fs) e.embedDataCache [] e (by simp) (by simp) hnodup
    simpa using this

/-! ## Cap and dump: lemmas -/

theorem capChunks_eq_take (chunks : List QString) :
    capChunks chunks = chunks.take 100 ∧ (capChunks chunks).length ≤ 100 := by
  unfold capChunks
  by_cases h : chunks.length > 100
  · simp only [h, if_true, midList, List.drop_zero, List.length_take, true_and]
    omega
  · simp only [h, if_false]
    exact ⟨(List.take_of_length_le (by omega)).symm, by omega⟩

/-- A successful `embeddingDocument` stores the non-empty chunks among the first 100 of
the chunk list of the document, and so at most 100 entries. -/
theorem embeddingDocument_caps_chunks {V : Type} (env : Env V) (e e2 : Embedding V)
    (path : QString) (h : embeddingDocument env e path = some (true, e2)) :
    ∃ cs vectors, documentChunks env path = some cs
      ∧ embeddingTexts env.onHttpEmbedding (cs.take 100) = some vectors
      ∧ e2 = insertLoop path (cs.take 100) vectors (firstContinueID e) e
      ∧ (keptPairs (cs.take 100) vectors).length ≤ 100 := by
  obtain ⟨cs, hcs, hst⟩ := embeddingDocument_true env e e2 path h
  obtain ⟨vectors, hv, hlen, he2⟩ := embedAndStore_true env e e2 path _ hst
  obtain ⟨htake, hle⟩ := capChunks_eq_take cs
  rw [htake] at hv he2 hlen hle
  refine ⟨cs, vectors, hcs, hv, he2, ?_⟩
  have h1 : (keptPairs (cs.take 100) vectors).length ≤ ((cs.take 100).zip vectors).length :=
    List.length_filter_le _ _
  have h2 : ((cs.take 100).zip vectors).length ≤ (cs.take 100).length := by
    rw [List.length_zip]; exact Nat.min_le_left _ _
  omega

theorem lookupName_dropName {α : Type} (name : QString) :
    ∀ table : List (QString × α), lookupName name (dropName name table) = none
  | [] => rfl
  | en :: table => by
    have ih := lookupName_dropName name table
    unfold dropName at ih ⊢
    by_cases h : en.1 = name
    · rw [filter_cons_drop (fun x : QString × α => decide (x.1 ≠ name)) en table (by simp [h])]
      exact ih
    · rw [filter_cons_keep (fun x : QString × α => decide (x.1 ≠ name)) en table (by simp [h])]
      unfold lookupName at ih ⊢
      simp only [List.find?_cons, h, decide_False]
      exact ih

/-- After `onIndexDump(indexKey)` the memory shard of the key is gone. -/
theorem onIndexDump_clears_shard {F : Type} (env : IndexEnv F) (vi : VectorIndex F)
    (indexKey : QString) :
    lookupName indexKey (onIndexDump env vi indexKey).flatIndexHash = none := by
  unfold onIndexDump
  exact lookupName_dropName indexKey _

/-- The rows that one `saveIndexToFile` adds: when the directory of the key exists and the
transaction commits, the number of rows with `deleteBit = 1` in the database of the key
grows by the length of `segmentIds`, the ids pending for all keys. -/
theorem saveIndexToFile_rows {F : Type} (env : IndexEnv F) (vi : VectorIndex F)
    (index : FaissIndex F) (indexKey indexType : QString) (indexDir : IndexDir F)
    (hdir : lookupName indexKey vi.dirs = some indexDir) (hok : env.commitOk = true) :
    liveSegmentRows (saveIndexToFile env vi index indexKey indexType).2 (indexKey ++ qs ".db")
      = liveSegmentRows vi (indexKey ++ qs ".db") + vi.segmentIds.length := by
  have hrows : ∀ (name : QString) (ids : List Int),
      ((ids.map fun id => ({ id := id, deleteBit := 1, content := name } : SegRow)).filter
        fun r => decide (r.deleteBit = 1)).length = ids.length := by
    intro name ids
    induction ids with
    | nil => rfl
    | cons a as ih => simp [List.filter_cons, ih]
  have hdbs : ∀ (name : QString) (rows : List SegRow),
      lookupName (indexKey ++ qs ".db")
          (commitSegments true vi.dbs (indexKey ++ qs ".db") rows)
        = some (match lookupName (indexKey ++ qs ".db") vi.dbs with
            | some db => { db with segments := db.segments ++ rows }
            | none => { metadata := [], segments := rows }) := by
    intro name rows
    unfold commitSegments
    simp only [if_true]
    cases lookupName (indexKey ++ qs ".db") vi.dbs <;>
      simp only [lookupName_storeName_same]
  unfold saveIndexToFile
  simp only [hdir, hok]
  have hlive : ∀ vi2 : VectorIndex F, vi2.dbs = commitSegments true vi.dbs (indexKey ++ qs ".db")
      (vi.segmentIds.map fun id =>
        ({ id := id, deleteBit := 1,
           content := indexType ++ qs "_"
             ++ numberStr (indexFilesNum env vi indexKey indexType + 1) ++ qs ".faiss" } : SegRow)) →
      liveSegmentRows vi2 (indexKey ++ qs ".db")
        = liveSegmentRows vi (indexKey ++ qs ".db") + vi.segmentIds.length := by
    intro vi2 h2
    unfold liveSegmentRows
    rw [h2, hdbs (indexKey ++ qs ".db")]
    cases lookupName (indexKey ++ qs ".db") vi.dbs with
    | none => simp only [hrows, Nat.zero_add]
    | some db => simp only [List.filter_append, List.length_append, hrows]
  split_ifs
  · exact hlive _ rfl
  · exact hlive _ rfl

/-! ## Vector index: the file that is loaded -/

theorem onIndexDump_keeps_loaded_shard {F : Type} (env : IndexEnv F) (vi : VectorIndex F)
    (indexKey key2 : QString) :
    loadIndexFromFile (onIndexDump env vi indexKey) key2 env.kFaissFlatIndex
      = loadIndexFromFile vi key2 env.kFaissFlatIndex := by
  have h := saveIndexToFile_keeps_loaded_shard env vi
    ((lookupName indexKey vi.flatIndexHash).getD []) indexKey env.kFaissFlatIndex key2
  unfold onIndexDump
  exact h

theorem updateIndex_keeps_loaded_shard {F : Type} (env : IndexEnv F) (vi vi2 : VectorIndex F)
    (d : Nat) (embeddings : List F) (ids : List Int) (indexKey key2 : QString) (ok : Bool)
    (h : updateIndex env vi d embeddings ids indexKey = some (ok, vi2)) :
    loadIndexFromFile vi2 key2 env.kFaissFlatIndex
      = loadIndexFromFile vi key2 env.kFaissFlatIndex := by
  unfold updateIndex at h
  simp only [] at h
  split_ifs at h
  all_goals simp only [Option.some.injEq, Prod.mk.injEq] at h
  · rw [← h.2]
  · rw [← h.2]
  · rw [← h.2, onIndexDump_keeps_loaded_shard]
    rfl
  · rw [← h.2]
    rfl

theorem createIndex_keeps_loaded_shard {F : Type} (env : IndexEnv F) (vi vi2 : VectorIndex F)
    (d : Nat) (embeddings : List F) (ids : List Int) (indexKey key2 : QString) (ok : Bool)
    (h : createIndex env vi d embeddings ids indexKey = some (ok, vi2)) :
    loadIndexFromFile vi2 key2 env.kFaissFlatIndex
      = loadIndexFromFile vi key2 env.kFaissFlatIndex := by
  unfold createIndex at h
  split_ifs at h
  all_goals simp only [Option.some.injEq] at h
  · have h2 : vi2 = vi := (congrArg Prod.snd h).symm
    rw [h2]
  · have h2 : vi2 = (createFlatIndex env vi d embeddings ids indexKey).2 := by rw [h]
    rw [h2]
    unfold createFlatIndex
    exact saveIndexToFile_keeps_loaded_shard env vi _ indexKey env.kFaissFlatIndex key2
  · have h2 : vi2 = vi := (congrArg Prod.snd h).symm
    rw [h2]
  · have h2 : vi2 = vi := (congrArg Prod.snd h).symm
    rw [h2]

theorem deleteIndex_keeps_loaded_shard {F : Type} (env : IndexEnv F) (vi : VectorIndex F)
    (indexKey key2 : QString) (deleteID : List Int) :
    loadIndexFromFile (deleteIndex env vi indexKey deleteID).2 key2 env.kFaissFlatIndex
      = loadIndexFromFile vi key2 env.kFaissFlatIndex := by
  unfold deleteIndex deleteFlatIndex
  cases hload : loadIndexFromFile vi indexKey env.kFaissFlatIndex with
  | none => rfl
  | some index =>
    simp only []
    rw [saveIndexToFile_keeps_loaded_shard]

/-- No sequence of `createIndex`, `updateIndex` and `deleteIndex` calls changes what
`loadIndexFromFile` finds for the flat index type: every file these calls write is named
`<type>_<n>.faiss`, the file that is loaded is `<type>.faiss`. -/
theorem runCalls_keeps_loaded_shard {F : Type} (env : IndexEnv F) :
    ∀ (calls : List (IndexCall F)) (vi vi2 : VectorIndex F), runCalls env vi calls = some vi2 →
      ∀ key : QString, loadIndexFromFile vi2 key env.kFaissFlatIndex
        = loadIndexFromFile vi key env.kFaissFlatIndex
  | [], vi, vi2, h, key => by
    simp only [runCalls, Option.some.injEq] at h
    rw [h]
  | call :: calls, vi, vi2, h, key => by
    unfold runCalls at h
    cases hcall : runCall env vi call with
    | none => rw [hcall] at h; simp at h
    | some vi1 =>
      rw [hcall] at h
      simp only [] at h
      rw [runCalls_keeps_loaded_shard env calls vi1 vi2 h key]
      cases call with
      | create d embeddings ids indexKey =>
        simp only [runCall] at hcall
        cases hc : createIndex env vi d embeddings ids indexKey with
        | none => rw [hc] at hcall; simp at hcall
        | some r =>
          rw [hc] at hcall
          simp only [Option.map_some', Option.some.injEq] at hcall
          rw [← hcall]
          exact createIndex_keeps_loaded_shard env vi r.2 d embeddings ids indexKey key r.1 hc
      | update d embeddings ids indexKey =>
        simp only [runCall] at hcall
        cases hc : updateIndex env vi d embeddings ids indexKey with
        | none => rw [hc] at hcall; simp at hcall
        | some r =>
          rw [hc] at hcall
          simp only [Option.map_some', Option.some.injEq] at hcall
          rw [← hcall]
          exact updateIndex_keeps_loaded_shard env vi r.2 d embeddings ids indexKey key r.1 hc
      | delete indexKey deleteID =>
        simp only [runCall, Option.some.injEq] at hcall
        rw [← hcall]
        exact deleteIndex_keeps_loaded_shard env vi indexKey key deleteID

/-- On an object whose directories hold no file `<type>.faiss` at the start (fresh
directories, say), after any sequence of calls every `deleteIndex` returns false and
changes nothing, and every `vectorSearch` returns no label. -/
theorem delete_and_search_reach_no_shard {F : Type} (env : IndexEnv F) (vi vi2 : VectorIndex F)
    (calls : List (IndexCall F))
    (hfresh : ∀ key : QString, loadIndexFromFile vi key env.kFaissFlatIndex = none)
    (hrun : runCalls env vi calls = some vi2) (indexKey : QString) (deleteID : List Int)
    (topK : Int) (queryVector : List F) :
    deleteIndex env vi2 indexKey deleteID = (false, vi2)
      ∧ vectorSearch env vi2 topK queryVector indexKey = [] := by
  have hnone : loadIndexFromFile vi2 indexKey env.kFaissFlatIndex = none := by
    rw [runCalls_keeps_loaded_shard env calls vi vi2 hrun indexKey]
    exact hfresh indexKey
  unfold deleteIndex deleteFlatIndex vectorSearch
  simp only [hnone, and_self]

/-! ## Vector index: dump, create and delete (C12, C13, C17, C18) -/

/-- C13 at a failing run: `updateIndex(1, [7], [5], "k2")` leaves id 5 pending in
`segmentIds` (one vector, no dump); `updateIndex(1, [8, 9], [0, 1], "k1")` then brings the
memory shard of `k1` to 2 vectors and dumps it. The memory shard of `k1` is gone and
`Flat_1.faiss` holds the batch of 2 ids, but the rows with `deleteBit = 1` in `k1.db` went
from 0 to 3: `segmentIds` is one list for all keys, and the row of id 5 of `k2` is
written to `k1.db` as well. -/
theorem dump_writes_rows_of_other_key :
    updateIndex sampleIndexEnv emptyVectorIndex 1 [7] [5] (qs "k2") = some (true, pendingOtherKey)
      ∧ updateIndex sampleIndexEnv pendingOtherKey 1 [8, 9] [0, 1] (qs "k1")
          = some (true, dumpedWithOtherKey)
      ∧ lookupName (qs "k1") dumpedWithOtherKey.flatIndexHash = none
      ∧ liveSegmentRows pendingOtherKey (qs "k1.db") = 0
      ∧ liveSegmentRows dumpedWithOtherKey (qs "k1.db") = 3
      ∧ ([0, 1] : List Int).length = 2 := by
  decide

/-- C17 at a failing input: `createIndex(4, [], [], "k1")` on a fresh object whose
directory of `k1` exists. The count `n = 0 / 4 = 0` equals `ids.count()`, the flat branch
is taken, and the call returns true after writing the file `Flat_1.faiss` with an empty
index. -/
theorem createIndex_accepts_empty_input :
    ([] : List Nat).length / 4 = 0
      ∧ createIndex sampleIndexEnv emptyVectorIndex 4 [] [] (qs "k1") = some (true, emptyIndexFile)
      ∧ loadIndexFromFile emptyVectorIndex (qs "k1") (qs "Flat_1") = none
      ∧ loadIndexFromFile emptyIndexFile (qs "k1") (qs "Flat_1") = some [] := by
  decide

/-- C18 at a failing input: the ids 0 and 1 of `k1` are pending and `faiss::write_index`
throws. `saveIndexToFile` returns true, the two rows are in `k1.db` and no file is
written; the dump that calls it then drops the memory shard. -/
theorem saveIndexToFile_failed_write_reports_success :
    saveIndexToFile failingWriteEnv pendingBatch [(0, [8]), (1, [9])] (qs "k1") (qs "Flat")
        = (true, { rowsWithoutFile with flatIndexHash := pendingBatch.flatIndexHash })
      ∧ updateIndex failingWriteEnv emptyVectorIndex 1 [8, 9] [0, 1] (qs "k1")
          = some (true, rowsWithoutFile)
      ∧ liveSegmentRows emptyVectorIndex (qs "k1.db") = 0
      ∧ liveSegmentRows rowsWithoutFile (qs "k1.db") = 2
      ∧ lookupName (qs "k1") rowsWithoutFile.dirs = some { files := [] } := by
  decide

end DeepinAI
